import Mathlib

/-!
# Streaming variance / standard deviation aggregates (`stddev.cpp`)

Shallow embedding of `src/function/aggregate/algebraic/stddev.cpp`.

* `double` fields are values of a type `α` with the arithmetic operations the code
  uses.  The exact-arithmetic theorems take `α` to be a field (the definitions run on
  `ℚ`).  Conversions `uint64_t → double` are the cast `ℕ → α`.
* `uint64_t count` is a natural number; every `count++` and every sum of two
  counts is reduced modulo `2 ^ 64`, as the machine does.
* `Value::DoubleIsValid`, `sqrt` and `std::to_string(double)` are library
  functions that are not part of the file; they are parameters of the finalizers.
  Where a claim turns on a value being finite or not, the scalar type is
  `exact_double` (rationals with `+inf`, `-inf` and NaN) and the validity test is
  `Value.DoubleIsValid`, modelled from the spec.  Where it turns on overflow, the
  scalar type is `ranged_double`, whose results become infinite from the overflow
  threshold of the 64-bit format on.
* A finalizer returns `Except String (Option β)`: `.error msg` is the thrown
  `OutOfRangeException`, `.ok none` is "null bit set, nothing written" and
  `.ok (some v)` is "value `v` written".
* A quotient by a zero count has no value in exact arithmetic (the machine yields
  an infinity or a NaN there).  The theorems that evaluate a quotient assume that the
  counter has not wrapped, which keeps every divisor non-zero; `combine_comm` only
  compares two syntactically equal quotients.
-/

namespace duckdb

/-- The aggregate state `stddev_state_t`: `count` (n), `mean` (M1), `dsquared` (M2). -/
structure stddev_state_t (α : Type) where
  count : Nat
  mean : α
  dsquared : α
deriving DecidableEq

section operations

variable {α : Type} [Zero α] [Add α] [Sub α] [Mul α] [Div α] [NatCast α]

namespace STDDevBaseOperation

/-- Embedding of `STDDevBaseOperation::Initialize`: all three fields are set to zero. -/
def Initialize : stddev_state_t α :=
  { count := 0, mean := 0, dsquared := 0 }

/-- Embedding of `STDDevBaseOperation::Operation`: one Welford step with the value `input`.
The counter is incremented first (modulo `2 ^ 64`) and the incremented value is the divisor. -/
def Operation (state : stddev_state_t α) (input : α) : stddev_state_t α :=
  let count : Nat := (state.count + 1) % 2 ^ 64
  let mean_differential := (input - state.mean) / (count : α)
  let new_mean := state.mean + mean_differential
  let dsquared_increment := (input - new_mean) * (input - state.mean)
  let new_dsquared := state.dsquared + dsquared_increment
  { count := count, mean := new_mean, dsquared := new_dsquared }

/-- Embedding of `STDDevBaseOperation::ConstantOperation`: the loop `for (i = 0; i < count; i++)`
that calls `Operation` on the single value of a constant vector. -/
def ConstantOperation (state : stddev_state_t α) (input : α) : Nat → stddev_state_t α
  | 0 => state
  | count + 1 => ConstantOperation (Operation state input) input count

/-- Embedding of `STDDevBaseOperation::Combine`: merge `source` into `target`; the result is the new
content of `*target`. -/
def Combine (source target : stddev_state_t α) : stddev_state_t α :=
  if target.count = 0 then
    source
  else if source.count > 0 then
    let count : Nat := (target.count + source.count) % 2 ^ 64
    let mean := ((source.count : α) * source.mean + (target.count : α) * target.mean) / (count : α)
    let delta := source.mean - target.mean
    { count := count
      mean := mean
      dsquared := source.dsquared + target.dsquared +
        delta * delta * (source.count : α) * (target.count : α) / (count : α) }
  else
    target

end STDDevBaseOperation

/-- Embedding of `VarSampOperation::Finalize`. -/
def VarSampOperation.Finalize (DoubleIsValid : α → Bool) (state : stddev_state_t α) :
    Except String (Option α) :=
  if state.count = 0 then
    .ok none
  else
    let target : α := if state.count > 1 then state.dsquared / ((state.count - 1 : Nat) : α) else 0
    if !DoubleIsValid target then
      .error "VARSAMP is out of range!"
    else
      .ok (some target)

/-- Embedding of `STDDevSampStateOperation::Finalize`: the diagnostic text. `std::to_string` of the
unsigned count is its decimal representation; `to_string` is `std::to_string(double)`. -/
def STDDevSampStateOperation.Finalize (DoubleIsValid : α → Bool) (sqrt : α → α)
    (to_string : α → String) (state : stddev_state_t α) : Except String (Option String) :=
  if state.count = 0 then
    .ok none
  else
    let stddev_samp : α :=
      if state.count > 1 then sqrt (state.dsquared / ((state.count - 1 : Nat) : α)) else 0
    if !DoubleIsValid stddev_samp then
      .error "STDDEV_SAMP is out of range!"
    else
      let states := "\x7b"
      let states := states ++ "count: " ++ toString state.count ++ ", "
      let states := states ++ "mean: " ++ to_string state.mean ++ ", "
      let states := states ++ "dsquared: " ++ to_string state.dsquared ++ ", "
      let states := states ++ "stddev: " ++ to_string stddev_samp ++ "\x7d"
      .ok (some states)

/-- Embedding of `VarPopOperation::Finalize`. -/
def VarPopOperation.Finalize (DoubleIsValid : α → Bool) (state : stddev_state_t α) :
    Except String (Option α) :=
  if state.count = 0 then
    .ok none
  else
    let target : α := if state.count > 1 then state.dsquared / (state.count : α) else 0
    if !DoubleIsValid target then
      .error "VARPOP is out of range!"
    else
      .ok (some target)

/-- Embedding of `STDDevSampOperation::Finalize`. -/
def STDDevSampOperation.Finalize (DoubleIsValid : α → Bool) (sqrt : α → α)
    (state : stddev_state_t α) : Except String (Option α) :=
  if state.count = 0 then
    .ok none
  else
    let target : α :=
      if state.count > 1 then sqrt (state.dsquared / ((state.count - 1 : Nat) : α)) else 0
    if !DoubleIsValid target then
      .error "STDDEV_SAMP is out of range!"
    else
      .ok (some target)

/-- Embedding of `STDDevPopOperation::Finalize`. -/
def STDDevPopOperation.Finalize (DoubleIsValid : α → Bool) (sqrt : α → α)
    (state : stddev_state_t α) : Except String (Option α) :=
  if state.count = 0 then
    .ok none
  else
    let target : α := if state.count > 1 then sqrt (state.dsquared / (state.count : α)) else 0
    if !DoubleIsValid target then
      .error "STDDEV_POP is out of range!"
    else
      .ok (some target)

/-- The value `VarSampOperation::Finalize` assigns to `target[idx]` when `count` is not
zero, before the validity test. -/
def VarSampOperation.target (state : stddev_state_t α) : α :=
  if state.count > 1 then state.dsquared / ((state.count - 1 : Nat) : α) else 0

/-- The value `VarPopOperation::Finalize` assigns to `target[idx]` when `count` is not
zero, before the validity test. -/
def VarPopOperation.target (state : stddev_state_t α) : α :=
  if state.count > 1 then state.dsquared / (state.count : α) else 0

/-- The value `STDDevSampOperation::Finalize` assigns to `target[idx]` when `count` is not
zero, before the validity test. -/
def STDDevSampOperation.target (sqrt : α → α) (state : stddev_state_t α) : α :=
  if state.count > 1 then sqrt (state.dsquared / ((state.count - 1 : Nat) : α)) else 0

/-- The value `STDDevPopOperation::Finalize` assigns to `target[idx]` when `count` is not
zero, before the validity test. -/
def STDDevPopOperation.target (sqrt : α → α) (state : stddev_state_t α) : α :=
  if state.count > 1 then sqrt (state.dsquared / (state.count : α)) else 0

/-- The local variable `stddev_samp` of `STDDevSampStateOperation::Finalize`, computed when
`count` is not zero, before the validity test. -/
def STDDevSampStateOperation.stddev_samp (sqrt : α → α) (state : stddev_state_t α) : α :=
  if state.count > 1 then sqrt (state.dsquared / ((state.count - 1 : Nat) : α)) else 0

/-- The driver of one partition: `Initialize`, then one `Operation` per value, in order. -/
def accumulate (xs : List α) : stddev_state_t α :=
  xs.foldl STDDevBaseOperation.Operation STDDevBaseOperation.Initialize

/-- The data-model invariant: an empty state has zero mean and zero `dsquared`. -/
def Invariant (s : stddev_state_t α) : Prop :=
  s.count = 0 → s.mean = 0 ∧ s.dsquared = 0

instance Invariant.decidable [DecidableEq α] (s : stddev_state_t α) : Decidable (Invariant s) :=
  inferInstanceAs (Decidable (s.count = 0 → s.mean = 0 ∧ s.dsquared = 0))

end operations

/-! ### Doubles with their non-finite values

`exact_double` is the instance of the scalar type that keeps what a field cannot: the two
infinities and NaN.  Finite values are rationals and are combined exactly (no rounding, no
overflow, one unsigned zero); the results on and into the non-finite values are those of
IEEE 754.  It is used where a claim turns on a value being finite or not. -/

/-- A double in exact arithmetic: a finite rational, `+inf`, `-inf` or NaN. -/
inductive exact_double where
  | finite (q : ℚ)
  | pos_inf
  | neg_inf
  | nan
deriving DecidableEq

namespace exact_double

/-- Sign change. -/
def neg : exact_double → exact_double
  | finite q => finite (-q)
  | pos_inf => neg_inf
  | neg_inf => pos_inf
  | nan => nan

/-- Addition: `inf + (-inf)` is NaN, NaN is absorbing. -/
def add : exact_double → exact_double → exact_double
  | finite a, finite b => finite (a + b)
  | finite _, pos_inf => pos_inf
  | finite _, neg_inf => neg_inf
  | pos_inf, finite _ => pos_inf
  | pos_inf, pos_inf => pos_inf
  | pos_inf, neg_inf => nan
  | neg_inf, finite _ => neg_inf
  | neg_inf, neg_inf => neg_inf
  | neg_inf, pos_inf => nan
  | nan, _ => nan
  | finite _, nan => nan
  | pos_inf, nan => nan
  | neg_inf, nan => nan

/-- The infinity with the sign of `q`, NaN for `q = 0`: the product `q * inf`. -/
def signed_inf (q : ℚ) : exact_double :=
  if q = 0 then nan else if 0 < q then pos_inf else neg_inf

/-- Multiplication: `0 * inf` is NaN, NaN is absorbing. -/
def mul : exact_double → exact_double → exact_double
  | finite a, finite b => finite (a * b)
  | finite a, pos_inf => signed_inf a
  | finite a, neg_inf => signed_inf (-a)
  | pos_inf, finite b => signed_inf b
  | neg_inf, finite b => signed_inf (-b)
  | pos_inf, pos_inf => pos_inf
  | pos_inf, neg_inf => neg_inf
  | neg_inf, pos_inf => neg_inf
  | neg_inf, neg_inf => pos_inf
  | nan, _ => nan
  | finite _, nan => nan
  | pos_inf, nan => nan
  | neg_inf, nan => nan

/-- Division: a non-zero finite value over zero is an infinity, `0 / 0` and `inf / inf`
are NaN, a finite value over an infinity is zero. -/
def div : exact_double → exact_double → exact_double
  | finite a, finite b => if b = 0 then signed_inf a else finite (a / b)
  | finite _, pos_inf => finite 0
  | finite _, neg_inf => finite 0
  | pos_inf, finite b => if 0 ≤ b then pos_inf else neg_inf
  | neg_inf, finite b => if 0 ≤ b then neg_inf else pos_inf
  | pos_inf, pos_inf => nan
  | pos_inf, neg_inf => nan
  | neg_inf, pos_inf => nan
  | neg_inf, neg_inf => nan
  | nan, _ => nan
  | finite _, nan => nan
  | pos_inf, nan => nan
  | neg_inf, nan => nan

instance : Zero exact_double := ⟨finite 0⟩

instance : Add exact_double := ⟨add⟩

instance : Sub exact_double := ⟨fun a b => add a (neg b)⟩

instance : Mul exact_double := ⟨mul⟩

instance : Div exact_double := ⟨div⟩

instance : NatCast exact_double := ⟨fun n => finite n⟩

/-- The library function `sqrt`: NaN on a negative argument and on `-inf`; `root` is the
square root on the non-negative rationals. -/
def sqrt (root : ℚ → ℚ) : exact_double → exact_double
  | finite q => if q < 0 then nan else finite (root q)
  | pos_inf => pos_inf
  | neg_inf => nan
  | nan => nan

end exact_double

/-- Modelled from the spec: `Value::DoubleIsValid`, which is declared outside this file.
The spec's range validation accepts a result exactly when it is a finite real number and
rejects NaN and the two infinities. -/
def Value.DoubleIsValid : exact_double → Bool
  | .finite _ => true
  | .pos_inf => false
  | .neg_inf => false
  | .nan => false

/-! ### Doubles with their range

`ranged_double` adds the range of the 64-bit format to `exact_double`: the exact result of
every operation becomes an infinity when its magnitude reaches the overflow threshold.
Finite results are still not rounded.  It is the scalar type for what the code does when an
accumulation overflows. -/

/-- The magnitude from which a result overflows to an infinity under round-to-nearest:
`2^1024 - 2^970`, half a unit in the last place above the largest finite double
`2^1024 - 2^971`. -/
def overflow_threshold : ℚ :=
  2 ^ 1024 - 2 ^ 970

/-- The range of the format applied to an exact result. -/
def exact_double.overflow : exact_double → exact_double
  | .finite q =>
    if overflow_threshold ≤ q then .pos_inf
    else if q ≤ -overflow_threshold then .neg_inf
    else .finite q
  | .pos_inf => .pos_inf
  | .neg_inf => .neg_inf
  | .nan => .nan

/-- A double whose operations overflow: the operations of `exact_double`, each followed by
`exact_double.overflow`. -/
structure ranged_double where
  val : exact_double
deriving DecidableEq

namespace ranged_double

instance : Zero ranged_double := ⟨⟨.finite 0⟩⟩

instance : Add ranged_double := ⟨fun a b => ⟨(a.val + b.val).overflow⟩⟩

instance : Sub ranged_double := ⟨fun a b => ⟨(a.val - b.val).overflow⟩⟩

instance : Mul ranged_double := ⟨fun a b => ⟨(a.val * b.val).overflow⟩⟩

instance : Div ranged_double := ⟨fun a b => ⟨(a.val / b.val).overflow⟩⟩

instance : NatCast ranged_double := ⟨fun n => ⟨(exact_double.finite n).overflow⟩⟩

/-- Modelled from the spec: `Value::DoubleIsValid` on `ranged_double`; as for
`Value.DoubleIsValid`, a result is accepted exactly when it is a finite real number. -/
def DoubleIsValid (x : ranged_double) : Bool :=
  Value.DoubleIsValid x.val

/-- A finite double: a finite value below the overflow threshold in magnitude. -/
def in_range : ranged_double → Bool
  | ⟨.finite q⟩ => decide (-overflow_threshold < q ∧ q < overflow_threshold)
  | ⟨.pos_inf⟩ => false
  | ⟨.neg_inf⟩ => false
  | ⟨.nan⟩ => false

end ranged_double

/-- Bookkeeping relation for accumulation over `ranged_double`: a finite `dsquared` comes
with a finite mean, an empty state is the zero state, and a one-value state has a finite
`dsquared`. -/
def overflow_tracked (s : stddev_state_t ranged_double) : Prop :=
  (ranged_double.DoubleIsValid s.dsquared = true → s.mean.in_range = true) ∧
    Invariant s ∧ (s.count = 1 → ranged_double.DoubleIsValid s.dsquared = true)

/-- Subtraction of `uint64_t` values, which wraps modulo `2 ^ 64` (both arguments below
`2 ^ 64`). -/
def uint64_sub (a b : Nat) : Nat :=
  (a + 2 ^ 64 - b) % 2 ^ 64

/-! ### Specification-side definitions -/

variable {α : Type} [Field α]

/-- Arithmetic mean of a list, `(sum of xs) / length(xs)`. -/
def classical_mean (xs : List α) : α :=
  xs.sum / (xs.length : α)

/-- Sum of squared deviations from the arithmetic mean. -/
def classical_sum_sq_dev (xs : List α) : α :=
  (xs.map fun x => (x - classical_mean xs) ^ 2).sum

/-- Classical population variance, `(1/n) * sum of (x_i - mean)^2`. -/
def classical_var_pop (xs : List α) : α :=
  1 / (xs.length : α) * classical_sum_sq_dev xs

/-- Bookkeeping relation used in the proofs: the state `s` stands for `n` values whose
sum is `S` and whose sum of squares is `Q`. -/
def Tracks (s : stddev_state_t α) (n : Nat) (S Q : α) : Prop :=
  s.count = n ∧ (n : α) * s.mean = S ∧ s.dsquared + (n : α) * s.mean ^ 2 = Q

/-! ### Auxiliary lemmas -/

section lemmas

open STDDevBaseOperation

theorem tracks_Initialize [CharZero α] : Tracks (Initialize : stddev_state_t α) 0 0 0 := by
  simp [Tracks, Initialize]

theorem tracks_Operation [CharZero α] {s : stddev_state_t α} {n : Nat} {S Q : α} (h : Tracks s n S Q)
    (hn : n + 1 < 2 ^ 64) (x : α) : Tracks (Operation s x) (n + 1) (S + x) (Q + x ^ 2) := by
  obtain ⟨hc, hS, hQ⟩ := h
  subst hS hQ
  have hne : ((n : α) + 1) ≠ 0 := by exact_mod_cast Nat.succ_ne_zero n
  refine ⟨?_, ?_, ?_⟩
  · simp only [Operation, hc, Nat.mod_eq_of_lt hn]
  · simp only [Operation, hc, Nat.mod_eq_of_lt hn, Nat.cast_add, Nat.cast_one]
    field_simp
    ring
  · simp only [Operation, hc, Nat.mod_eq_of_lt hn, Nat.cast_add, Nat.cast_one]
    field_simp
    ring

theorem tracks_foldl [CharZero α] (l : List α) : ∀ {s : stddev_state_t α} {n : Nat} {S Q : α},
    Tracks s n S Q → n + l.length < 2 ^ 64 →
    Tracks (l.foldl Operation s) (n + l.length) (S + l.sum) (Q + (l.map fun x => x ^ 2).sum) := by
  induction l with
  | nil => intro s n S Q h _; simpa using h
  | cons x l ih =>
    intro s n S Q h hn
    simp only [List.length_cons] at hn
    have h1 := tracks_Operation h (by omega) x
    have h2 := ih h1 (by omega)
    simp only [List.foldl_cons, List.length_cons, List.sum_cons, List.map_cons]
    have e1 : n + (l.length + 1) = n + 1 + l.length := by omega
    rw [e1, ← add_assoc S, ← add_assoc Q]
    exact h2

theorem sum_sq_dev_expand [CharZero α] (l : List α) (m : α) :
    (l.map fun x => (x - m) ^ 2).sum =
      (l.map fun x => x ^ 2).sum - 2 * m * l.sum + (l.length : α) * m ^ 2 := by
  induction l with
  | nil => simp
  | cons x l ih =>
    simp only [List.map_cons, List.sum_cons, List.length_cons, Nat.cast_add, Nat.cast_one, ih]
    ring

theorem tracks_accumulate [CharZero α] (xs : List α) (hlen : xs.length < 2 ^ 64) :
    Tracks (accumulate xs) xs.length xs.sum (xs.map fun x => x ^ 2).sum := by
  have h := tracks_foldl xs (tracks_Initialize (α := α)) (by omega)
  simpa [accumulate] using h

theorem accumulate_spec [CharZero α] (xs : List α) (hne : xs ≠ []) (hlen : xs.length < 2 ^ 64) :
    (accumulate xs).count = xs.length ∧ (accumulate xs).mean = classical_mean xs ∧
      (accumulate xs).dsquared = classical_sum_sq_dev xs := by
  obtain ⟨hc, hS, hQ⟩ := tracks_accumulate xs hlen
  have hn : (xs.length : α) ≠ 0 := by
    have : xs.length ≠ 0 := fun h => hne (List.length_eq_zero.mp h)
    exact_mod_cast this
  have hm : (accumulate xs).mean = classical_mean xs := by
    rw [classical_mean, eq_div_iff hn, mul_comm]
    exact hS
  refine ⟨hc, hm, ?_⟩
  rw [classical_sum_sq_dev, sum_sq_dev_expand, ← hQ, ← hS, hm]
  ring

theorem invariant_accumulate [CharZero α] (xs : List α) (hlen : xs.length < 2 ^ 64) :
    Invariant (accumulate xs) := by
  intro h0
  have hc := (tracks_accumulate xs hlen).1
  have hnil : xs = [] := List.length_eq_zero.mp (hc ▸ h0)
  subst hnil
  simp [accumulate, Initialize]

theorem tracks_self (s : stddev_state_t α) :
    Tracks s s.count ((s.count : α) * s.mean) (s.dsquared + (s.count : α) * s.mean ^ 2) :=
  ⟨rfl, rfl, rfl⟩

theorem tracks_congr {s : stddev_state_t α} {n n' : Nat} {S S' Q Q' : α} (h : Tracks s n S Q)
    (hn : n = n') (hS : S = S') (hQ : Q = Q') : Tracks s n' S' Q' := by
  subst hn hS hQ
  exact h

theorem tracks_Combine [CharZero α] {s t : stddev_state_t α} {n₁ n₂ : Nat} {S₁ S₂ Q₁ Q₂ : α}
    (hs : Tracks s n₁ S₁ Q₁) (ht : Tracks t n₂ S₂ Q₂) (is : Invariant s) (it : Invariant t)
    (hn : n₂ + n₁ < 2 ^ 64) : Tracks (Combine s t) (n₂ + n₁) (S₂ + S₁) (Q₂ + Q₁) := by
  obtain ⟨hc₁, hS₁, hQ₁⟩ := hs
  obtain ⟨hc₂, hS₂, hQ₂⟩ := ht
  subst hS₁ hQ₁ hS₂ hQ₂
  unfold Combine
  split_ifs with h0 h1
  · obtain ⟨hm, hd⟩ := it h0
    have hz : n₂ = 0 := hc₂ ▸ h0
    subst hz
    refine ⟨by omega, ?_, ?_⟩ <;> simp [hm, hd]
  · have hpos : 0 < n₂ + n₁ := by omega
    have hne : ((n₂ : α) + (n₁ : α)) ≠ 0 := by exact_mod_cast hpos.ne'
    refine ⟨?_, ?_, ?_⟩
    · simp only [hc₁, hc₂, Nat.mod_eq_of_lt hn]
    · simp only [hc₁, hc₂, Nat.mod_eq_of_lt hn, Nat.cast_add]
      field_simp
      ring
    · simp only [hc₁, hc₂, Nat.mod_eq_of_lt hn, Nat.cast_add]
      field_simp
      ring
  · have hs0 : s.count = 0 := by omega
    obtain ⟨hm, hd⟩ := is hs0
    have hz : n₁ = 0 := hc₁ ▸ hs0
    subst hz
    refine ⟨by omega, ?_, ?_⟩ <;> simp [hm, hd]

theorem invariant_Combine {s t : stddev_state_t α} (is : Invariant s) (it : Invariant t)
    (hn : t.count + s.count < 2 ^ 64) : Invariant (Combine s t) := by
  unfold Combine
  split_ifs with h0 h1
  · exact is
  · intro h
    simp only [Nat.mod_eq_of_lt hn] at h
    omega
  · exact it

theorem eq_of_tracks [CharZero α] {s t : stddev_state_t α} {n : Nat} {S Q : α} (hs : Tracks s n S Q)
    (ht : Tracks t n S Q) (is : Invariant s) (it : Invariant t) : s = t := by
  obtain ⟨hc₁, hS₁, hQ₁⟩ := hs
  obtain ⟨hc₂, hS₂, hQ₂⟩ := ht
  rcases s with ⟨c, m, d⟩
  rcases t with ⟨c', m', d'⟩
  simp only at hc₁ hS₁ hQ₁ hc₂ hS₂ hQ₂
  subst hc₁ hc₂
  rcases Nat.eq_zero_or_pos c' with hz | hpos
  · obtain ⟨h1, h2⟩ := is hz
    obtain ⟨h3, h4⟩ := it hz
    simp only at h1 h2 h3 h4
    simp [h1, h2, h3, h4]
  · have hne : (c' : α) ≠ 0 := by exact_mod_cast hpos.ne'
    have hm : m = m' := mul_left_cancel₀ hne (hS₁.trans hS₂.symm)
    subst hm
    have hd : d = d' := add_right_cancel (hQ₁.trans hQ₂.symm)
    simp [hd]

end lemmas

/-! ### Theorems -/

open STDDevBaseOperation

/-- C1: in exact arithmetic (a field of characteristic zero, the 64-bit counter not
wrapping), `Initialize` followed by one `Operation` per element of a non-empty list `xs`
gives `count = length xs`, `mean = (sum of xs) / length xs` and
`dsquared = sum of (x - mean)^2`. -/
theorem welford_accumulate_exact [CharZero α] (xs : List α) (hne : xs ≠ [])
    (hlen : xs.length < 2 ^ 64) :
    (xs.foldl Operation Initialize).count = xs.length ∧
      (xs.foldl Operation Initialize).mean = xs.sum / (xs.length : α) ∧
      (xs.foldl Operation Initialize).dsquared =
        (xs.map fun x => (x - xs.sum / (xs.length : α)) ^ 2).sum :=
  accumulate_spec xs hne hlen

/-- Witness for C1 on the rational input `[1, 2, 4]`. -/
theorem welford_accumulate_exact_witness :
    (([1, 2, 4] : List ℚ).foldl Operation Initialize).count = ([1, 2, 4] : List ℚ).length ∧
      (([1, 2, 4] : List ℚ).foldl Operation Initialize).mean =
        ([1, 2, 4] : List ℚ).sum / (([1, 2, 4] : List ℚ).length : ℚ) ∧
      (([1, 2, 4] : List ℚ).foldl Operation Initialize).dsquared =
        (([1, 2, 4] : List ℚ).map fun x =>
          (x - ([1, 2, 4] : List ℚ).sum / (([1, 2, 4] : List ℚ).length : ℚ)) ^ 2).sum :=
  welford_accumulate_exact [1, 2, 4] (by simp) (by simp)

/-- C2: in exact arithmetic (counter not wrapping), `Combine` with source the state
accumulated from `xs` and target the state accumulated from `ys` leaves in the target the
state accumulated from `ys ++ xs` in one partition (equal in `count`, `mean`, `dsquared`);
either list may be empty. -/
theorem combine_accumulate_concat [CharZero α] (xs ys : List α)
    (hlen : ys.length + xs.length < 2 ^ 64) :
    (Combine (accumulate xs) (accumulate ys)).count = (accumulate (ys ++ xs)).count ∧
      (Combine (accumulate xs) (accumulate ys)).mean = (accumulate (ys ++ xs)).mean ∧
      (Combine (accumulate xs) (accumulate ys)).dsquared = (accumulate (ys ++ xs)).dsquared := by
  have hx : xs.length < 2 ^ 64 := by omega
  have hy : ys.length < 2 ^ 64 := by omega
  have hxy : (ys ++ xs).length < 2 ^ 64 := by simpa using hlen
  have h1 := tracks_Combine (tracks_accumulate xs hx) (tracks_accumulate ys hy)
    (invariant_accumulate xs hx) (invariant_accumulate ys hy) hlen
  have h2 := tracks_accumulate (ys ++ xs) hxy
  simp only [List.length_append, List.sum_append, List.map_append] at h2
  have hi : Invariant (Combine (accumulate xs) (accumulate ys)) :=
    invariant_Combine (invariant_accumulate xs hx) (invariant_accumulate ys hy)
      (by rw [(tracks_accumulate xs hx).1, (tracks_accumulate ys hy).1]; exact hlen)
  have e := eq_of_tracks h1 h2 hi (invariant_accumulate (ys ++ xs) hxy)
  rw [e]
  exact ⟨rfl, rfl, rfl⟩

/-- Witness for C2 on the rational inputs `xs = [1, 2]`, `ys = [4]`. -/
theorem combine_accumulate_concat_witness :
    (Combine (accumulate ([1, 2] : List ℚ)) (accumulate [4])).count =
        (accumulate ([4] ++ [1, 2] : List ℚ)).count ∧
      (Combine (accumulate ([1, 2] : List ℚ)) (accumulate [4])).mean =
        (accumulate ([4] ++ [1, 2] : List ℚ)).mean ∧
      (Combine (accumulate ([1, 2] : List ℚ)) (accumulate [4])).dsquared =
        (accumulate ([4] ++ [1, 2] : List ℚ)).dsquared :=
  combine_accumulate_concat [1, 2] [4] (by simp)

/-- C3: in exact arithmetic (every value is valid for `DoubleIsValid`, counter not
wrapping), accumulating a non-empty list and applying `VarPopOperation::Finalize` returns
the non-null classical population variance `(1/n) * sum of (x_i - mean xs)^2`; for
`n = 1` both are `0`. -/
theorem var_pop_accumulate_classical [CharZero α] (DoubleIsValid : α → Bool)
    (hvalid : ∀ v, DoubleIsValid v = true) (xs : List α) (hne : xs ≠ [])
    (hlen : xs.length < 2 ^ 64) :
    VarPopOperation.Finalize DoubleIsValid (accumulate xs) = .ok (some (classical_var_pop xs)) ∧
      (xs.length = 1 → classical_var_pop xs = 0) := by
  obtain ⟨hc, hm, hd⟩ := accumulate_spec xs hne hlen
  have hpos : xs.length ≠ 0 := fun h => hne (List.length_eq_zero.mp h)
  have hone : xs.length = 1 → classical_var_pop xs = 0 := by
    intro h1
    obtain ⟨x, rfl⟩ := List.length_eq_one.mp h1
    simp [classical_var_pop, classical_sum_sq_dev, classical_mean]
  refine ⟨?_, hone⟩
  unfold VarPopOperation.Finalize
  rw [if_neg (by omega)]
  simp only [hvalid, Bool.not_true, Bool.false_eq_true, if_false]
  by_cases h1 : xs.length = 1
  · have : ¬ (accumulate xs).count > 1 := by omega
    rw [if_neg this, hone h1]
  · have : (accumulate xs).count > 1 := by omega
    rw [if_pos this, hd, hc, classical_var_pop]
    congr 2
    ring

/-- Witness for C3 on the rational input `[2, 4]`, every value being valid. -/
theorem var_pop_accumulate_classical_witness :
    VarPopOperation.Finalize (fun _ : ℚ => true) (accumulate [2, 4]) =
        .ok (some (classical_var_pop [2, 4])) ∧
      (([2, 4] : List ℚ).length = 1 → classical_var_pop ([2, 4] : List ℚ) = 0) :=
  var_pop_accumulate_classical (fun _ : ℚ => true) (fun _ => rfl) [2, 4] (by simp) (by simp)

/-- C4: `Combine` is commutative in exact arithmetic: for states `a`, `b` satisfying the
data-model invariant, `Combine(source = a, target = b)` and `Combine(source = b, target = a)`
leave the same `count`, `mean` and `dsquared` in the target. -/
theorem combine_comm (a b : stddev_state_t α) (ia : Invariant a) (ib : Invariant b) :
    (Combine a b).count = (Combine b a).count ∧ (Combine a b).mean = (Combine b a).mean ∧
      (Combine a b).dsquared = (Combine b a).dsquared := by
  suffices h : Combine a b = Combine b a by rw [h]; exact ⟨rfl, rfl, rfl⟩
  rcases a with ⟨ca, ma, da⟩
  rcases b with ⟨cb, mb, db⟩
  unfold Combine
  simp only
  by_cases ha : ca = 0 <;> by_cases hb : cb = 0
  · obtain ⟨h1, h2⟩ := ia ha
    obtain ⟨h3, h4⟩ := ib hb
    simp only at h1 h2 h3 h4
    simp [ha, hb, h1, h2, h3, h4]
  · simp [ha, hb]
  · simp [ha, hb, Nat.pos_of_ne_zero ha]
  · simp only [ha, hb, if_false, Nat.pos_of_ne_zero ha, Nat.pos_of_ne_zero hb, gt_iff_lt,
      if_true, Nat.add_comm ca cb]
    congr 1 <;> ring

/-- Witness for C4 on two rational states. -/
theorem combine_comm_witness :
    (Combine (⟨2, 1, 3⟩ : stddev_state_t ℚ) ⟨0, 0, 0⟩).count =
        (Combine (⟨0, 0, 0⟩ : stddev_state_t ℚ) ⟨2, 1, 3⟩).count ∧
      (Combine (⟨2, 1, 3⟩ : stddev_state_t ℚ) ⟨0, 0, 0⟩).mean =
        (Combine (⟨0, 0, 0⟩ : stddev_state_t ℚ) ⟨2, 1, 3⟩).mean ∧
      (Combine (⟨2, 1, 3⟩ : stddev_state_t ℚ) ⟨0, 0, 0⟩).dsquared =
        (Combine (⟨0, 0, 0⟩ : stddev_state_t ℚ) ⟨2, 1, 3⟩).dsquared :=
  combine_comm ⟨2, 1, 3⟩ ⟨0, 0, 0⟩ (fun h => absurd h (by decide)) (fun _ => ⟨rfl, rfl⟩)

/-- C5: `Combine` is associative in exact arithmetic (counter not wrapping): writing
`merge s t` for the target left by `Combine(source = s, target = t)`, for states `a`, `b`,
`c` satisfying the data-model invariant, `merge (merge a b) c = merge a (merge b c)`,
field for field. -/
theorem combine_assoc [CharZero α] (a b c : stddev_state_t α) (ia : Invariant a)
    (ib : Invariant b) (ic : Invariant c) (hn : a.count + b.count + c.count < 2 ^ 64) :
    Combine (Combine a b) c = Combine a (Combine b c) := by
  have hab := tracks_Combine (tracks_self a) (tracks_self b) ia ib (by omega)
  have iab : Invariant (Combine a b) := invariant_Combine ia ib (by omega)
  have hbc := tracks_Combine (tracks_self b) (tracks_self c) ib ic (by omega)
  have ibc : Invariant (Combine b c) := invariant_Combine ib ic (by omega)
  have h1 := tracks_Combine hab (tracks_self c) iab ic (by omega)
  have h2 := tracks_Combine (tracks_self a) hbc ia ibc (by omega)
  have i1 : Invariant (Combine (Combine a b) c) :=
    invariant_Combine iab ic (by rw [hab.1]; omega)
  have i2 : Invariant (Combine a (Combine b c)) :=
    invariant_Combine ia ibc (by rw [hbc.1]; omega)
  exact eq_of_tracks h1 (tracks_congr h2 (by omega) (by ring) (by ring)) i1 i2

/-- Witness for C5 on three rational states. -/
theorem combine_assoc_witness :
    Combine (Combine (⟨2, 1, 3⟩ : stddev_state_t ℚ) ⟨1, 4, 0⟩) ⟨3, 2, 5⟩ =
      Combine ⟨2, 1, 3⟩ (Combine ⟨1, 4, 0⟩ ⟨3, 2, 5⟩) :=
  combine_assoc ⟨2, 1, 3⟩ ⟨1, 4, 0⟩ ⟨3, 2, 5⟩ (fun h => absurd h (by decide))
    (fun h => absurd h (by decide)) (fun h => absurd h (by decide)) (by decide)

/-- C6: `Combine` treats an empty operand as the identity: if `target.count = 0` the new
target is an exact copy of `source`; otherwise, if `source.count = 0`, the target is
unchanged. -/
theorem combine_empty_operand (source target : stddev_state_t α) :
    (target.count = 0 → Combine source target = source) ∧
      (target.count ≠ 0 → source.count = 0 → Combine source target = target) := by
  constructor
  · intro h
    simp [Combine, h]
  · intro h hs
    simp [Combine, h, hs]

/-- Witness for C6: an empty target receives the source, an empty source changes nothing. -/
theorem combine_empty_operand_witness :
    Combine (⟨2, 1, 3⟩ : stddev_state_t ℚ) ⟨0, 7, 9⟩ = ⟨2, 1, 3⟩ ∧
      Combine (⟨0, 7, 9⟩ : stddev_state_t ℚ) ⟨2, 1, 3⟩ = ⟨2, 1, 3⟩ :=
  ⟨(combine_empty_operand ⟨2, 1, 3⟩ ⟨0, 7, 9⟩).1 rfl,
    (combine_empty_operand ⟨0, 7, 9⟩ ⟨2, 1, 3⟩).2 (by decide) rfl⟩

/-- C7: `ConstantOperation` with value `v` and run length `n` yields exactly the state
obtained by `n` sequential `Operation` calls with `v`; for `n = 0` the state is unchanged. -/
theorem constant_operation_eq_updates (s : stddev_state_t α) (v : α) (n : Nat) :
    ConstantOperation s v n = (List.replicate n v).foldl Operation s ∧
      ConstantOperation s v 0 = s := by
  refine ⟨?_, rfl⟩
  induction n generalizing s with
  | zero => rfl
  | succ n ih => simp only [ConstantOperation, List.replicate_succ, List.foldl_cons, ih]

/-- C8: on a state with `count = 0`, whatever its `mean` and `dsquared`, each of the five
finalizers marks the result null, writes no value and raises no error. -/
theorem finalize_empty_is_null (DoubleIsValid : α → Bool) (sqrt : α → α)
    (to_string : α → String) (s : stddev_state_t α) (h : s.count = 0) :
    VarPopOperation.Finalize DoubleIsValid s = .ok none ∧
      VarSampOperation.Finalize DoubleIsValid s = .ok none ∧
      STDDevPopOperation.Finalize DoubleIsValid sqrt s = .ok none ∧
      STDDevSampOperation.Finalize DoubleIsValid sqrt s = .ok none ∧
      STDDevSampStateOperation.Finalize DoubleIsValid sqrt to_string s = .ok none := by
  simp [VarPopOperation.Finalize, VarSampOperation.Finalize, STDDevPopOperation.Finalize,
    STDDevSampOperation.Finalize, STDDevSampStateOperation.Finalize, h]

/-- Witness for C8: an empty rational state with non-zero `mean` and `dsquared`, a validity
test that rejects everything. -/
theorem finalize_empty_is_null_witness :
    VarPopOperation.Finalize (fun _ : ℚ => false) ⟨0, 3, 7⟩ = .ok none ∧
      VarSampOperation.Finalize (fun _ : ℚ => false) ⟨0, 3, 7⟩ = .ok none ∧
      STDDevPopOperation.Finalize (fun _ : ℚ => false) id ⟨0, 3, 7⟩ = .ok none ∧
      STDDevSampOperation.Finalize (fun _ : ℚ => false) id ⟨0, 3, 7⟩ = .ok none ∧
      STDDevSampStateOperation.Finalize (fun _ : ℚ => false) id (fun _ => "") ⟨0, 3, 7⟩ =
        .ok none :=
  finalize_empty_is_null (fun _ : ℚ => false) id (fun _ => "") ⟨0, 3, 7⟩ rfl

/-- C9: on a state with `count = 1` (zero being a valid double) each of the four numeric
finalizers returns the non-null value `0` without raising, and the diagnostic finalizer
returns a non-null text whose `stddev` field is the text of `0`; the state accumulated from
the single-element input `[5]` is such a state. -/
theorem finalize_single_is_zero (DoubleIsValid : α → Bool) (sqrt : α → α)
    (to_string : α → String) (hzero : DoubleIsValid 0 = true) (s : stddev_state_t α)
    (h : s.count = 1) :
    (VarPopOperation.Finalize DoubleIsValid s = .ok (some 0) ∧
      VarSampOperation.Finalize DoubleIsValid s = .ok (some 0) ∧
      STDDevPopOperation.Finalize DoubleIsValid sqrt s = .ok (some 0) ∧
      STDDevSampOperation.Finalize DoubleIsValid sqrt s = .ok (some 0) ∧
      STDDevSampStateOperation.Finalize DoubleIsValid sqrt to_string s =
        .ok (some ("\x7bcount: 1, mean: " ++ to_string s.mean ++ ", dsquared: " ++
          to_string s.dsquared ++ ", stddev: " ++ to_string 0 ++ "\x7d"))) ∧
      accumulate [(5 : α)] = ⟨1, 5, 0⟩ := by
  have htext : toString (1 : Nat) = "1" := rfl
  refine ⟨⟨?_, ?_, ?_, ?_, ?_⟩, ?_⟩
  · simp [VarPopOperation.Finalize, h, hzero]
  · simp [VarSampOperation.Finalize, h, hzero]
  · simp [STDDevPopOperation.Finalize, h, hzero]
  · simp [STDDevSampOperation.Finalize, h, hzero]
  · simp only [STDDevSampStateOperation.Finalize, h, hzero, htext, one_ne_zero, if_false,
      gt_iff_lt, lt_self_iff_false, Bool.not_true, Bool.false_eq_true, String.append_assoc]
    rfl
  · simp [accumulate, Operation, Initialize]

/-- Witness for C9: the rational state accumulated from `[5]`, with every value valid. -/
theorem finalize_single_is_zero_witness :
    VarPopOperation.Finalize (fun _ : ℚ => true) (accumulate [5]) = .ok (some 0) ∧
      VarSampOperation.Finalize (fun _ : ℚ => true) (accumulate [5]) = .ok (some 0) ∧
      STDDevPopOperation.Finalize (fun _ : ℚ => true) id (accumulate [5]) = .ok (some 0) ∧
      STDDevSampOperation.Finalize (fun _ : ℚ => true) id (accumulate [5]) = .ok (some 0) ∧
      STDDevSampStateOperation.Finalize (fun _ : ℚ => true) id (fun q => toString q)
          (accumulate [5]) =
        .ok (some ("\x7bcount: 1, mean: " ++ toString (accumulate [(5 : ℚ)]).mean ++
          ", dsquared: " ++ toString (accumulate [(5 : ℚ)]).dsquared ++ ", stddev: " ++
          toString (0 : ℚ) ++ "\x7d")) :=
  (finalize_single_is_zero (fun _ : ℚ => true) id (fun q => toString q) rfl (accumulate [5])
    (by decide)).1

/-- C10: in exact arithmetic (every value valid), on a state with `count > 1` the value
returned by `VarSampOperation::Finalize` equals the value returned by
`VarPopOperation::Finalize` multiplied by `count / (count - 1)`. -/
theorem var_samp_eq_var_pop_scaled [CharZero α] (DoubleIsValid : α → Bool)
    (hvalid : ∀ v, DoubleIsValid v = true) (s : stddev_state_t α) (h : s.count > 1) :
    ∃ samp pop : α, VarSampOperation.Finalize DoubleIsValid s = .ok (some samp) ∧
      VarPopOperation.Finalize DoubleIsValid s = .ok (some pop) ∧
      samp = pop * ((s.count : α) / ((s.count : α) - 1)) := by
  have h0 : s.count ≠ 0 := by omega
  have hc : (s.count : α) ≠ 0 := by exact_mod_cast h0
  have h1 : 1 ≤ s.count := by omega
  have hc1 : (s.count : α) - 1 ≠ 0 := by
    have : s.count - 1 ≠ 0 := by omega
    have h2 : ((s.count - 1 : Nat) : α) ≠ 0 := by exact_mod_cast this
    rwa [Nat.cast_sub h1, Nat.cast_one] at h2
  refine ⟨s.dsquared / ((s.count - 1 : Nat) : α), s.dsquared / (s.count : α), ?_, ?_, ?_⟩
  · simp [VarSampOperation.Finalize, h0, h, hvalid]
  · simp [VarPopOperation.Finalize, h0, h, hvalid]
  · rw [Nat.cast_sub h1, Nat.cast_one]
    field_simp

/-- Witness for C10 on the rational state `count = 8, mean = 5, dsquared = 32`. -/
theorem var_samp_eq_var_pop_scaled_witness :
    ∃ samp pop : ℚ, VarSampOperation.Finalize (fun _ => true) ⟨8, 5, 32⟩ = .ok (some samp) ∧
      VarPopOperation.Finalize (fun _ => true) ⟨8, 5, 32⟩ = .ok (some pop) ∧
      samp = pop * (((8 : Nat) : ℚ) / (((8 : Nat) : ℚ) - 1)) :=
  var_samp_eq_var_pop_scaled (fun _ : ℚ => true) (fun _ => rfl) ⟨8, 5, 32⟩ (by decide)

/-! ### Evaluation lemmas for `exact_double` -/

section exact_double_lemmas

open exact_double

theorem exact_double.zero_def : (0 : exact_double) = finite 0 := rfl

theorem exact_double.natCast_def (n : Nat) : ((n : Nat) : exact_double) = finite (n : ℚ) := rfl

theorem exact_double.ofNat_def (n : Nat) [n.AtLeastTwo] :
    (OfNat.ofNat n : exact_double) = finite (OfNat.ofNat n) := by
  show finite ((OfNat.ofNat n : Nat) : ℚ) = finite (OfNat.ofNat n)
  simp

theorem exact_double.finite_add (a b : ℚ) : finite a + finite b = finite (a + b) := rfl

theorem exact_double.finite_sub (a b : ℚ) : finite a - finite b = finite (a - b) := by
  show add (finite a) (neg (finite b)) = finite (a - b)
  simp only [neg, add, sub_eq_add_neg]

theorem exact_double.finite_mul (a b : ℚ) : finite a * finite b = finite (a * b) := rfl

theorem exact_double.finite_div (a b : ℚ) :
    finite a / finite b = if b = 0 then signed_inf a else finite (a / b) := rfl

theorem exact_double.add_nan (a : exact_double) : a + nan = nan := by
  cases a <;> rfl

theorem exact_double.nan_add (a : exact_double) : nan + a = nan := rfl

end exact_double_lemmas

/-! ### Theorems that hold for every scalar type -/

section generic

variable {β : Type}

/-- C11 (amended): on a state with `count > 0`, whenever a variance finalizer returns a
value `v`, the matching standard-deviation finalizer computes `sqrt v` (`sqrt 0 = 0` for
`count = 1`), returns it when it is a valid double and raises its range error otherwise. -/
theorem stddev_is_sqrt_of_variance [Zero β] [Div β] [NatCast β] (DoubleIsValid : β → Bool)
    (sqrt : β → β) (hsqrt : sqrt 0 = 0) (s : stddev_state_t β) (h : s.count > 0) :
    (∀ v, VarPopOperation.Finalize DoubleIsValid s = .ok (some v) →
        STDDevPopOperation.Finalize DoubleIsValid sqrt s =
          if DoubleIsValid (sqrt v) then .ok (some (sqrt v))
          else .error "STDDEV_POP is out of range!") ∧
      (∀ v, VarSampOperation.Finalize DoubleIsValid s = .ok (some v) →
        STDDevSampOperation.Finalize DoubleIsValid sqrt s =
          if DoubleIsValid (sqrt v) then .ok (some (sqrt v))
          else .error "STDDEV_SAMP is out of range!") := by
  have h0 : s.count ≠ 0 := by omega
  constructor
  · intro v hv
    unfold VarPopOperation.Finalize at hv
    unfold STDDevPopOperation.Finalize
    rw [if_neg h0] at hv ⊢
    by_cases h1 : s.count > 1
    · simp only [if_pos h1] at hv ⊢
      by_cases hval : DoubleIsValid (s.dsquared / (s.count : β)) = true
      · simp only [hval, Bool.not_true, Bool.false_eq_true, if_false, Except.ok.injEq,
          Option.some.injEq] at hv
        subst hv
        by_cases hs : DoubleIsValid (sqrt (s.dsquared / (s.count : β))) = true <;> simp [hs]
      · simp [hval] at hv
    · simp only [if_neg h1] at hv ⊢
      by_cases hval : DoubleIsValid (0 : β) = true
      · simp only [hval, Bool.not_true, Bool.false_eq_true, if_false, Except.ok.injEq,
          Option.some.injEq] at hv
        subst hv
        simp [hsqrt, hval]
      · simp [hval] at hv
  · intro v hv
    unfold VarSampOperation.Finalize at hv
    unfold STDDevSampOperation.Finalize
    rw [if_neg h0] at hv ⊢
    by_cases h1 : s.count > 1
    · simp only [if_pos h1] at hv ⊢
      by_cases hval : DoubleIsValid (s.dsquared / ((s.count - 1 : Nat) : β)) = true
      · simp only [hval, Bool.not_true, Bool.false_eq_true, if_false, Except.ok.injEq,
          Option.some.injEq] at hv
        subst hv
        by_cases hs : DoubleIsValid (sqrt (s.dsquared / ((s.count - 1 : Nat) : β))) = true <;>
          simp [hs]
      · simp [hval] at hv
    · simp only [if_neg h1] at hv ⊢
      by_cases hval : DoubleIsValid (0 : β) = true
      · simp only [hval, Bool.not_true, Bool.false_eq_true, if_false, Except.ok.injEq,
          Option.some.injEq] at hv
        subst hv
        simp [hsqrt, hval]
      · simp [hval] at hv

/-- Witness for C11 (amended): the state `count = 2, mean = 0, dsquared = 8` over
`exact_double`, with the square root taken as the identity on the rationals. -/
theorem stddev_is_sqrt_of_variance_witness :
    (∀ v, VarPopOperation.Finalize Value.DoubleIsValid
          (⟨2, .finite 0, .finite 8⟩ : stddev_state_t exact_double) = .ok (some v) →
        STDDevPopOperation.Finalize Value.DoubleIsValid (exact_double.sqrt fun q => q)
            ⟨2, .finite 0, .finite 8⟩ =
          if Value.DoubleIsValid (exact_double.sqrt (fun q => q) v) then
            .ok (some (exact_double.sqrt (fun q => q) v))
          else .error "STDDEV_POP is out of range!") ∧
      (∀ v, VarSampOperation.Finalize Value.DoubleIsValid
          (⟨2, .finite 0, .finite 8⟩ : stddev_state_t exact_double) = .ok (some v) →
        STDDevSampOperation.Finalize Value.DoubleIsValid (exact_double.sqrt fun q => q)
            ⟨2, .finite 0, .finite 8⟩ =
          if Value.DoubleIsValid (exact_double.sqrt (fun q => q) v) then
            .ok (some (exact_double.sqrt (fun q => q) v))
          else .error "STDDEV_SAMP is out of range!") :=
  stddev_is_sqrt_of_variance Value.DoubleIsValid (exact_double.sqrt fun q => q)
    (by simp [exact_double.sqrt, exact_double.zero_def]) ⟨2, .finite 0, .finite 8⟩ (by decide)

/-- C11 (counterexample): on the state `count = 2, mean = 0, dsquared = -2` the variance
finalizers return `-1` and `-2`, while both standard-deviation finalizers raise their range
error (the square root of a negative number is NaN) instead of returning a square root. -/
theorem stddev_raises_on_negative_variance :
    VarPopOperation.Finalize Value.DoubleIsValid
        (⟨2, .finite 0, .finite (-2)⟩ : stddev_state_t exact_double) =
        .ok (some (.finite (-1))) ∧
      VarSampOperation.Finalize Value.DoubleIsValid
        (⟨2, .finite 0, .finite (-2)⟩ : stddev_state_t exact_double) =
        .ok (some (.finite (-2))) ∧
      (∀ root : ℚ → ℚ, STDDevPopOperation.Finalize Value.DoubleIsValid (exact_double.sqrt root)
        (⟨2, .finite 0, .finite (-2)⟩ : stddev_state_t exact_double) =
        .error "STDDEV_POP is out of range!") ∧
      (∀ root : ℚ → ℚ, STDDevSampOperation.Finalize Value.DoubleIsValid (exact_double.sqrt root)
        (⟨2, .finite 0, .finite (-2)⟩ : stddev_state_t exact_double) =
        .error "STDDEV_SAMP is out of range!") := by
  refine ⟨?_, ?_, ?_, ?_⟩
  · simp [VarPopOperation.Finalize, exact_double.natCast_def, exact_double.ofNat_def,
      exact_double.finite_div, Value.DoubleIsValid]
  · simp [VarSampOperation.Finalize, exact_double.natCast_def, exact_double.ofNat_def,
      exact_double.finite_div, Value.DoubleIsValid]
  · intro root
    simp [STDDevPopOperation.Finalize, exact_double.natCast_def, exact_double.ofNat_def,
      exact_double.finite_div, Value.DoubleIsValid, exact_double.sqrt]
  · intro root
    simp [STDDevSampOperation.Finalize, exact_double.natCast_def, exact_double.ofNat_def,
      exact_double.finite_div, Value.DoubleIsValid, exact_double.sqrt]

end generic

/-! ### The concrete scenario and the range validation -/

theorem scenario_state : accumulate ([2, 4, 4, 4, 5, 5, 7, 9] : List ℝ) = ⟨8, 5, 32⟩ := by
  simp only [accumulate, List.foldl_cons, List.foldl_nil, Operation, Initialize]
  norm_num

/-- C12: in exact arithmetic (the reals, every value valid), accumulating
`[2, 4, 4, 4, 5, 5, 7, 9]` gives `count = 8, mean = 5, dsquared = 32`; on that state the
population variance is exactly `4`, the sample variance `32/7` (about `4.571429`), the
population standard deviation exactly `2` and the sample standard deviation `sqrt (32/7)`
(about `2.138090`). -/
theorem scenario_eight_values :
    accumulate ([2, 4, 4, 4, 5, 5, 7, 9] : List ℝ) = ⟨8, 5, 32⟩ ∧
      VarPopOperation.Finalize (fun _ => true) (accumulate ([2, 4, 4, 4, 5, 5, 7, 9] : List ℝ)) =
        .ok (some 4) ∧
      VarSampOperation.Finalize (fun _ => true) (accumulate ([2, 4, 4, 4, 5, 5, 7, 9] : List ℝ)) =
        .ok (some (32 / 7)) ∧
      STDDevPopOperation.Finalize (fun _ => true) Real.sqrt
        (accumulate ([2, 4, 4, 4, 5, 5, 7, 9] : List ℝ)) = .ok (some 2) ∧
      STDDevSampOperation.Finalize (fun _ => true) Real.sqrt
        (accumulate ([2, 4, 4, 4, 5, 5, 7, 9] : List ℝ)) = .ok (some (Real.sqrt (32 / 7))) ∧
      |(32 / 7 : ℝ) - 4.571429| < 0.000001 ∧ |Real.sqrt (32 / 7) - 2.138090| < 0.000001 := by
  have hs := scenario_state
  have h4 : Real.sqrt 4 = 2 := by
    rw [show (4 : ℝ) = 2 ^ 2 by norm_num]
    exact Real.sqrt_sq (by norm_num)
  refine ⟨hs, ?_, ?_, ?_, ?_, ?_, ?_⟩
  · rw [hs]; simp [VarPopOperation.Finalize]; norm_num
  · rw [hs]; simp [VarSampOperation.Finalize]
  · have h8 : (32 : ℝ) / ((8 : Nat) : ℝ) = 4 := by norm_num
    rw [hs]
    simp only [STDDevPopOperation.Finalize, h8, h4]
    simp
  · rw [hs]; simp [STDDevSampOperation.Finalize]
  · rw [abs_lt]; constructor <;> norm_num
  · rw [abs_lt]
    constructor
    · have : (2.138089 : ℝ) < Real.sqrt (32 / 7) := by
        rw [Real.lt_sqrt (by norm_num)]; norm_num
      linarith
    · have : Real.sqrt (32 / 7) < (2.138091 : ℝ) := by
        rw [Real.sqrt_lt' (by norm_num)]; norm_num
      linarith

section finalize_lemmas

variable {β : Type}

theorem var_pop_finalize_eq [Zero β] [Div β] [NatCast β] (V : β → Bool)
    (s : stddev_state_t β) (h : s.count ≠ 0) :
    VarPopOperation.Finalize V s =
      if V (VarPopOperation.target s) then .ok (some (VarPopOperation.target s))
      else .error "VARPOP is out of range!" := by
  unfold VarPopOperation.Finalize VarPopOperation.target
  rw [if_neg h]
  by_cases hv : V (if s.count > 1 then s.dsquared / (s.count : β) else 0) = true <;> simp [hv]

theorem var_samp_finalize_eq [Zero β] [Div β] [NatCast β] (V : β → Bool)
    (s : stddev_state_t β) (h : s.count ≠ 0) :
    VarSampOperation.Finalize V s =
      if V (VarSampOperation.target s) then .ok (some (VarSampOperation.target s))
      else .error "VARSAMP is out of range!" := by
  unfold VarSampOperation.Finalize VarSampOperation.target
  rw [if_neg h]
  by_cases hv : V (if s.count > 1 then s.dsquared / ((s.count - 1 : Nat) : β) else 0) = true <;>
    simp [hv]

theorem stddev_pop_finalize_eq [Zero β] [Div β] [NatCast β] (V : β → Bool)
    (sqrt : β → β) (s : stddev_state_t β) (h : s.count ≠ 0) :
    STDDevPopOperation.Finalize V sqrt s =
      if V (STDDevPopOperation.target sqrt s) then .ok (some (STDDevPopOperation.target sqrt s))
      else .error "STDDEV_POP is out of range!" := by
  unfold STDDevPopOperation.Finalize STDDevPopOperation.target
  rw [if_neg h]
  by_cases hv : V (if s.count > 1 then sqrt (s.dsquared / (s.count : β)) else 0) = true <;>
    simp [hv]

theorem stddev_samp_finalize_eq [Zero β] [Div β] [NatCast β] (V : β → Bool)
    (sqrt : β → β) (s : stddev_state_t β) (h : s.count ≠ 0) :
    STDDevSampOperation.Finalize V sqrt s =
      if V (STDDevSampOperation.target sqrt s) then
        .ok (some (STDDevSampOperation.target sqrt s))
      else .error "STDDEV_SAMP is out of range!" := by
  unfold STDDevSampOperation.Finalize STDDevSampOperation.target
  rw [if_neg h]
  by_cases hv :
      V (if s.count > 1 then sqrt (s.dsquared / ((s.count - 1 : Nat) : β)) else 0) = true <;>
    simp [hv]

theorem checked_result_iff (V : β → Bool) (v : β) (msg : String) :
    (((if V v then .ok (some v) else .error msg : Except String (Option β)) = .error msg ↔
        V v = false) ∧
      (V v = true → (if V v then .ok (some v) else .error msg : Except String (Option β)) =
        .ok (some v))) ∧
      ∀ r, (if V v then .ok (some v) else .error msg : Except String (Option β)) =
        .ok (some r) → V r = true := by
  by_cases hv : V v = true
  · simp [hv]
  · simp [hv]

theorem exact_double.valid_iff (v : exact_double) :
    Value.DoubleIsValid v = true ↔ ∃ q, v = .finite q := by
  cases v <;> simp [Value.DoubleIsValid]

theorem exact_double.invalid_div_natCast (d : exact_double) (n : Nat)
    (h : Value.DoubleIsValid d = false) : Value.DoubleIsValid (d / (n : exact_double)) = false := by
  have hn : (0 : ℚ) ≤ (n : ℚ) := Nat.cast_nonneg n
  cases d with
  | finite q => simp [Value.DoubleIsValid] at h
  | pos_inf =>
    show Value.DoubleIsValid (exact_double.div .pos_inf (.finite n)) = false
    simp [exact_double.div, hn, Value.DoubleIsValid]
  | neg_inf =>
    show Value.DoubleIsValid (exact_double.div .neg_inf (.finite n)) = false
    simp [exact_double.div, hn, Value.DoubleIsValid]
  | nan => rfl

end finalize_lemmas

section ranged_lemmas

open exact_double

theorem overflow_threshold_pos : (0 : ℚ) < overflow_threshold := by
  unfold overflow_threshold
  norm_num

theorem two_pow_64_lt_threshold : (2 : ℚ) ^ 64 < overflow_threshold := by
  unfold overflow_threshold
  norm_num

theorem exact_double.overflow_finite_of_lt (q : ℚ) (h1 : -overflow_threshold < q)
    (h2 : q < overflow_threshold) : (finite q).overflow = finite q := by
  simp [exact_double.overflow, not_le.mpr h1, not_le.mpr h2]

theorem exact_double.overflow_invalid (v : exact_double) (h : Value.DoubleIsValid v = false) :
    Value.DoubleIsValid v.overflow = false := by
  cases v <;> simp_all [exact_double.overflow, Value.DoubleIsValid]

theorem exact_double.overflow_valid (v : exact_double)
    (h : Value.DoubleIsValid v.overflow = true) :
    ∃ q, v = finite q ∧ -overflow_threshold < q ∧ q < overflow_threshold ∧
      v.overflow = finite q := by
  cases v with
  | finite q =>
    by_cases h1 : overflow_threshold ≤ q
    · simp [exact_double.overflow, h1, Value.DoubleIsValid] at h
    · by_cases h2 : q ≤ -overflow_threshold
      · simp [exact_double.overflow, h1, h2, Value.DoubleIsValid] at h
      · exact ⟨q, rfl, not_le.mp h2, not_le.mp h1, by simp [exact_double.overflow, h1, h2]⟩
  | pos_inf => simp [exact_double.overflow, Value.DoubleIsValid] at h
  | neg_inf => simp [exact_double.overflow, Value.DoubleIsValid] at h
  | nan => simp [exact_double.overflow, Value.DoubleIsValid] at h

theorem exact_double.add_invalid_left (a b : exact_double) (h : Value.DoubleIsValid a = false) :
    Value.DoubleIsValid (a + b) = false := by
  cases a <;> cases b <;> first | rfl | simp [Value.DoubleIsValid] at h

theorem exact_double.add_invalid_right (a b : exact_double) (h : Value.DoubleIsValid b = false) :
    Value.DoubleIsValid (a + b) = false := by
  cases a <;> cases b <;> first | rfl | simp [Value.DoubleIsValid] at h

theorem exact_double.signed_inf_invalid (q : ℚ) : Value.DoubleIsValid (signed_inf q) = false := by
  unfold signed_inf
  split_ifs <;> rfl

theorem exact_double.mul_invalid_right (a b : exact_double) (h : Value.DoubleIsValid b = false) :
    Value.DoubleIsValid (a * b) = false := by
  cases a <;> cases b <;>
    first
    | rfl
    | exact exact_double.signed_inf_invalid _
    | simp [Value.DoubleIsValid] at h

theorem exact_double.div_invalid_left (a b : exact_double) (h : Value.DoubleIsValid a = false) :
    Value.DoubleIsValid (a / b) = false := by
  cases a with
  | finite q => simp [Value.DoubleIsValid] at h
  | pos_inf =>
    cases b with
    | finite r =>
      show Value.DoubleIsValid (if 0 ≤ r then pos_inf else neg_inf) = false
      split_ifs <;> rfl
    | pos_inf => rfl
    | neg_inf => rfl
    | nan => rfl
  | neg_inf =>
    cases b with
    | finite r =>
      show Value.DoubleIsValid (if 0 ≤ r then neg_inf else pos_inf) = false
      split_ifs <;> rfl
    | pos_inf => rfl
    | neg_inf => rfl
    | nan => rfl
  | nan => rfl

theorem ranged_double.ranged_add_invalid_left (a b : ranged_double)
    (h : ranged_double.DoubleIsValid a = false) : ranged_double.DoubleIsValid (a + b) = false :=
  exact_double.overflow_invalid _ (exact_double.add_invalid_left a.val b.val h)

theorem ranged_double.ranged_add_invalid_right (a b : ranged_double)
    (h : ranged_double.DoubleIsValid b = false) : ranged_double.DoubleIsValid (a + b) = false :=
  exact_double.overflow_invalid _ (exact_double.add_invalid_right a.val b.val h)

theorem ranged_double.ranged_mul_invalid_right (a b : ranged_double)
    (h : ranged_double.DoubleIsValid b = false) : ranged_double.DoubleIsValid (a * b) = false :=
  exact_double.overflow_invalid _ (exact_double.mul_invalid_right a.val b.val h)

theorem ranged_double.ranged_div_invalid_left (a b : ranged_double)
    (h : ranged_double.DoubleIsValid a = false) : ranged_double.DoubleIsValid (a / b) = false :=
  exact_double.overflow_invalid _ (exact_double.div_invalid_left a.val b.val h)

theorem ranged_double.in_range_iff (x : ranged_double) :
    x.in_range = true ↔
      ∃ q, x = ⟨finite q⟩ ∧ -overflow_threshold < q ∧ q < overflow_threshold := by
  rcases x with ⟨v⟩
  cases v <;> simp [ranged_double.in_range]

theorem ranged_double.valid_of_in_range (x : ranged_double) (h : x.in_range = true) :
    ranged_double.DoubleIsValid x = true := by
  obtain ⟨q, rfl, -, -⟩ := (ranged_double.in_range_iff x).mp h
  rfl

theorem ranged_double.natCast_of_lt (n : Nat) (h : n < 2 ^ 64) :
    ((n : Nat) : ranged_double) = ⟨finite (n : ℚ)⟩ := by
  have h1 : (n : ℚ) < 2 ^ 64 := by exact_mod_cast h
  have h2 : (0 : ℚ) ≤ (n : ℚ) := Nat.cast_nonneg n
  have h3 := two_pow_64_lt_threshold
  have h4 := overflow_threshold_pos
  show (⟨(finite (n : ℚ)).overflow⟩ : ranged_double) = ⟨finite (n : ℚ)⟩
  rw [exact_double.overflow_finite_of_lt _ (by linarith) (by linarith)]

theorem ranged_double.sub_finite (a m : ℚ) :
    ((⟨finite a⟩ : ranged_double) - ⟨finite m⟩) = ⟨(finite (a - m)).overflow⟩ := by
  show (⟨(finite a - finite m).overflow⟩ : ranged_double) = _
  rw [exact_double.finite_sub]

theorem ranged_double.add_finite (a m : ℚ) :
    ((⟨finite a⟩ : ranged_double) + ⟨finite m⟩) = ⟨(finite (a + m)).overflow⟩ := rfl

theorem ranged_double.mul_finite (a m : ℚ) :
    ((⟨finite a⟩ : ranged_double) * ⟨finite m⟩) = ⟨(finite (a * m)).overflow⟩ := rfl

theorem ranged_double.div_finite (a k : ℚ) (hk : k ≠ 0) :
    ((⟨finite a⟩ : ranged_double) / ⟨finite k⟩) = ⟨(finite (a / k)).overflow⟩ := by
  show (⟨(finite a / finite k).overflow⟩ : ranged_double) = _
  rw [exact_double.finite_div, if_neg hk]

theorem ranged_double.ranged_zero_def : (0 : ranged_double) = ⟨finite 0⟩ := rfl

theorem quotient_bound (T d k : ℚ) (hk : 1 ≤ k) (h1 : -T < d) (h2 : d < T) :
    -T < d / k ∧ d / k < T := by
  have hk0 : 0 < k := lt_of_lt_of_le one_pos hk
  have hT : 0 < T := by linarith
  rw [lt_div_iff₀ hk0, div_lt_iff₀ hk0]
  constructor <;> nlinarith

theorem running_mean_bound (T m a k : ℚ) (hk : 1 ≤ k) (hm1 : -T < m) (hm2 : m < T)
    (ha1 : -T < a) (ha2 : a < T) : -T < m + (a - m) / k ∧ m + (a - m) / k < T := by
  have hk0 : 0 < k := lt_of_lt_of_le one_pos hk
  have e : m + (a - m) / k = (m * (k - 1) + a) / k := by
    field_simp
    ring
  rw [e, lt_div_iff₀ hk0, div_lt_iff₀ hk0]
  constructor <;> nlinarith

theorem overflow_tracked_Initialize :
    overflow_tracked (Initialize : stddev_state_t ranged_double) :=
  ⟨fun _ => by
    show ranged_double.in_range ⟨finite 0⟩ = true
    have := overflow_threshold_pos
    simp [ranged_double.in_range, this], fun _ => ⟨rfl, rfl⟩, fun h => absurd h (by decide)⟩

theorem overflow_tracked_Operation (s : stddev_state_t ranged_double) (x : ranged_double)
    (hx : x.in_range = true) (hn : s.count + 1 < 2 ^ 64) (h : overflow_tracked s) :
    overflow_tracked (Operation s x) := by
  obtain ⟨a, rfl, ha1, ha2⟩ := (ranged_double.in_range_iff x).mp hx
  obtain ⟨h1, h2, -⟩ := h
  rcases s with ⟨c, mean, dsq⟩
  simp only at h1 h2 hn
  have hkc := ranged_double.natCast_of_lt (c + 1) hn
  have hk1 : (1 : ℚ) ≤ ((c + 1 : Nat) : ℚ) := by
    have : 1 ≤ c + 1 := by omega
    exact_mod_cast this
  have hk0 : ((c + 1 : Nat) : ℚ) ≠ 0 := by linarith
  refine ⟨?_, ?_, ?_⟩
  · intro hv
    simp only [Operation, Nat.mod_eq_of_lt hn] at hv ⊢
    by_cases hd : ranged_double.DoubleIsValid dsq = true
    · obtain ⟨m, rfl, hm1, hm2⟩ := (ranged_double.in_range_iff mean).mp (h1 hd)
      by_cases hD : ranged_double.DoubleIsValid ((⟨finite a⟩ : ranged_double) - ⟨finite m⟩) = true
      · rw [ranged_double.sub_finite] at hD
        obtain ⟨q, hq, hq1, hq2, hov⟩ := exact_double.overflow_valid (finite (a - m)) hD
        have hqe : a - m = q := exact_double.finite.inj hq
        have hb := quotient_bound _ _ _ hk1 hq1 hq2
        have hc := running_mean_bound _ m a _ hk1 hm1 hm2 ha1 ha2
        rw [ranged_double.sub_finite, hov, hkc, ranged_double.div_finite _ _ hk0,
          exact_double.overflow_finite_of_lt _ hb.1 hb.2, ranged_double.add_finite, ← hqe,
          exact_double.overflow_finite_of_lt _ hc.1 hc.2]
        exact decide_eq_true hc
      · have hD' : ranged_double.DoubleIsValid ((⟨finite a⟩ : ranged_double) - ⟨finite m⟩) =
            false := by simpa using hD
        have := ranged_double.ranged_add_invalid_right dsq _
          (ranged_double.ranged_mul_invalid_right
            ((⟨finite a⟩ : ranged_double) -
              (⟨finite m⟩ + ((⟨finite a⟩ : ranged_double) - ⟨finite m⟩) / ((c + 1 : Nat) : ranged_double)))
            _ hD')
        rw [this] at hv
        exact absurd hv (by decide)
    · have hd' : ranged_double.DoubleIsValid dsq = false := by simpa using hd
      have := ranged_double.ranged_add_invalid_left dsq
        ((⟨finite a⟩ -
            (mean + ((⟨finite a⟩ : ranged_double) - mean) / ((c + 1 : Nat) : ranged_double))) *
          (⟨finite a⟩ - mean)) hd'
      rw [this] at hv
      exact absurd hv (by decide)
  · intro h0
    simp only [Operation, Nat.mod_eq_of_lt hn] at h0
    omega
  · intro hc1
    simp only [Operation, Nat.mod_eq_of_lt hn] at hc1 ⊢
    have hc0 : c = 0 := by omega
    obtain ⟨hm, hdz⟩ := h2 hc0
    simp only at hm hdz
    subst hc0 hm hdz
    have hT := overflow_threshold_pos
    have e1 : ((0 + 1 : Nat) : ranged_double) = ⟨finite 1⟩ := by
      rw [ranged_double.natCast_of_lt _ (by decide)]
      simp
    rw [e1, ranged_double.ranged_zero_def, ranged_double.sub_finite, sub_zero,
      exact_double.overflow_finite_of_lt _ ha1 ha2, ranged_double.div_finite _ _ one_ne_zero,
      div_one, exact_double.overflow_finite_of_lt _ ha1 ha2, ranged_double.add_finite, zero_add,
      exact_double.overflow_finite_of_lt _ ha1 ha2, ranged_double.sub_finite, sub_self,
      exact_double.overflow_finite_of_lt _ (by linarith) hT, ranged_double.mul_finite, zero_mul,
      exact_double.overflow_finite_of_lt _ (by linarith) hT, ranged_double.add_finite, add_zero,
      exact_double.overflow_finite_of_lt _ (by linarith) hT]
    rfl

theorem overflow_tracked_foldl (xs : List ranged_double) :
    ∀ s : stddev_state_t ranged_double, overflow_tracked s → (∀ x ∈ xs, x.in_range = true) →
      s.count + xs.length < 2 ^ 64 → overflow_tracked (xs.foldl Operation s) := by
  induction xs with
  | nil => intro s hs _ _; exact hs
  | cons x xs ih =>
    intro s hs hx hn
    simp only [List.length_cons] at hn
    have h1 : s.count + 1 < 2 ^ 64 := by omega
    refine ih (Operation s x)
      (overflow_tracked_Operation s x (hx x (List.mem_cons_self x xs)) h1 hs)
      (fun y hy => hx y (List.mem_cons_of_mem x hy)) ?_
    show (s.count + 1) % 2 ^ 64 + xs.length < 2 ^ 64
    rw [Nat.mod_eq_of_lt h1]
    omega

theorem overflowed_state_raises (s : stddev_state_t ranged_double) (h : overflow_tracked s)
    (hbad : ranged_double.DoubleIsValid s.mean = false ∨
      ranged_double.DoubleIsValid s.dsquared = false) :
    VarPopOperation.Finalize ranged_double.DoubleIsValid s = .error "VARPOP is out of range!" ∧
      VarSampOperation.Finalize ranged_double.DoubleIsValid s =
        .error "VARSAMP is out of range!" := by
  obtain ⟨h1, h2, h3⟩ := h
  have hd : ranged_double.DoubleIsValid s.dsquared = false := by
    by_contra hcon
    have hv : ranged_double.DoubleIsValid s.dsquared = true := by simpa using hcon
    have hm := ranged_double.valid_of_in_range _ (h1 hv)
    rcases hbad with hb | hb
    · rw [hb] at hm; exact absurd hm (by decide)
    · rw [hb] at hv; exact absurd hv (by decide)
  have hc0 : s.count ≠ 0 := by
    intro h0
    rw [(h2 h0).2] at hd
    exact absurd hd (by decide)
  have hc1 : s.count ≠ 1 := by
    intro h1'
    rw [h3 h1'] at hd
    exact absurd hd (by decide)
  have hgt : s.count > 1 := by omega
  constructor
  · rw [var_pop_finalize_eq _ s hc0, VarPopOperation.target, if_pos hgt,
      ranged_double.ranged_div_invalid_left _ _ hd]
    rfl
  · rw [var_samp_finalize_eq _ s hc0, VarSampOperation.target, if_pos hgt,
      ranged_double.ranged_div_invalid_left _ _ hd]
    rfl

theorem Operation_first (a : ℚ) (ha1 : -overflow_threshold < a) (ha2 : a < overflow_threshold) :
    Operation (Initialize : stddev_state_t ranged_double) ⟨finite a⟩ =
      ⟨1, ⟨finite a⟩, ⟨finite 0⟩⟩ := by
  have hT := overflow_threshold_pos
  have e1 : ((1 : Nat) : ranged_double) = ⟨finite 1⟩ := by
    rw [ranged_double.natCast_of_lt _ (by decide)]
    simp
  simp only [Operation, Initialize, Nat.zero_add, Nat.mod_eq_of_lt (by decide : 1 < 2 ^ 64)]
  rw [e1, ranged_double.ranged_zero_def, ranged_double.sub_finite, sub_zero,
    exact_double.overflow_finite_of_lt _ ha1 ha2, ranged_double.div_finite _ _ one_ne_zero,
    div_one, exact_double.overflow_finite_of_lt _ ha1 ha2, ranged_double.add_finite, zero_add,
    exact_double.overflow_finite_of_lt _ ha1 ha2, ranged_double.sub_finite, sub_self,
    exact_double.overflow_finite_of_lt _ (by linarith) hT, ranged_double.mul_finite, zero_mul,
    exact_double.overflow_finite_of_lt _ (by linarith) hT, ranged_double.add_finite, add_zero,
    exact_double.overflow_finite_of_lt _ (by linarith) hT]

theorem Operation_dsquared_invalid (s : stddev_state_t ranged_double) (x : ranged_double)
    (h : ranged_double.DoubleIsValid
      ((x - (s.mean + (x - s.mean) / (((s.count + 1) % 2 ^ 64 : Nat) : ranged_double))) *
        (x - s.mean)) = false) :
    ranged_double.DoubleIsValid (Operation s x).dsquared = false :=
  ranged_double.ranged_add_invalid_right s.dsquared _ h

theorem difference_overflow_example :
    ranged_double.DoubleIsValid
      (accumulate ([⟨finite (2 ^ 1023)⟩, ⟨finite (-2 ^ 1023)⟩] : List ranged_double)).dsquared =
      false := by
  have h1 := Operation_first (2 ^ 1023) (by unfold overflow_threshold; norm_num)
    (by unfold overflow_threshold; norm_num)
  show ranged_double.DoubleIsValid (Operation (Operation Initialize _) _).dsquared = false
  rw [h1]
  refine Operation_dsquared_invalid _ _ (ranged_double.ranged_mul_invalid_right _ _ ?_)
  show Value.DoubleIsValid (finite (-2 ^ 1023) - finite (2 ^ 1023)).overflow = false
  rw [exact_double.finite_sub]
  have : (-2 ^ 1023 - 2 ^ 1023 : ℚ) ≤ -overflow_threshold := by
    unfold overflow_threshold; norm_num
  have h2 : ¬ overflow_threshold ≤ (-2 ^ 1023 - 2 ^ 1023 : ℚ) := by
    unfold overflow_threshold; norm_num
  simp only [exact_double.overflow, if_neg h2, if_pos this]
  rfl

theorem product_overflow_example :
    ranged_double.DoubleIsValid
      (accumulate ([⟨finite (2 ^ 600)⟩, ⟨finite (-2 ^ 600)⟩] : List ranged_double)).dsquared =
      false := by
  have hT : ∀ q : ℚ, -2 ^ 700 < q → q < 2 ^ 700 →
      -overflow_threshold < q ∧ q < overflow_threshold := by
    intro q h1 h2
    unfold overflow_threshold
    constructor
    · have : (-(2 ^ 1024 - 2 ^ 970) : ℚ) < -2 ^ 700 := by norm_num
      linarith
    · have : (2 ^ 700 : ℚ) < 2 ^ 1024 - 2 ^ 970 := by norm_num
      linarith
  have hf : ∀ q : ℚ, -2 ^ 700 < q → q < 2 ^ 700 → (finite q).overflow = finite q :=
    fun q h1 h2 => exact_double.overflow_finite_of_lt q (hT q h1 h2).1 (hT q h1 h2).2
  have h1 := Operation_first (2 ^ 600) (hT _ (by norm_num) (by norm_num)).1
    (hT _ (by norm_num) (by norm_num)).2
  have e2 : (((1 + 1) % 2 ^ 64 : Nat) : ranged_double) = ⟨finite 2⟩ := by
    rw [ranged_double.natCast_of_lt _ (by decide)]
    simp
  show ranged_double.DoubleIsValid (Operation (Operation Initialize _) _).dsquared = false
  rw [h1]
  refine Operation_dsquared_invalid _ _ ?_
  simp only
  rw [e2, ranged_double.sub_finite, hf _ (by norm_num) (by norm_num),
    ranged_double.div_finite _ _ two_ne_zero, hf _ (by norm_num) (by norm_num),
    ranged_double.add_finite, hf _ (by norm_num) (by norm_num), ranged_double.sub_finite,
    hf _ (by norm_num) (by norm_num), ranged_double.mul_finite]
  have h3 : overflow_threshold ≤ ((-2 ^ 600 - (2 ^ 600 + (-2 ^ 600 - 2 ^ 600) / 2)) *
      (-2 ^ 600 - 2 ^ 600) : ℚ) := by
    unfold overflow_threshold; norm_num
  show Value.DoubleIsValid (finite _).overflow = false
  simp only [exact_double.overflow, if_pos h3]
  rfl

theorem Operation_overflow_propagates (s : stddev_state_t ranged_double) (x : ranged_double)
    (h : ranged_double.DoubleIsValid (x - s.mean) = false ∨
      ranged_double.DoubleIsValid ((x - (Operation s x).mean) * (x - s.mean)) = false ∨
      ranged_double.DoubleIsValid s.dsquared = false) :
    ranged_double.DoubleIsValid (Operation s x).dsquared = false := by
  rcases h with h | h | h
  · exact ranged_double.ranged_add_invalid_right s.dsquared _
      (ranged_double.ranged_mul_invalid_right _ _ h)
  · exact ranged_double.ranged_add_invalid_right s.dsquared _ h
  · exact ranged_double.ranged_add_invalid_left s.dsquared _ h

theorem foldl_dsquared_invalid (xs : List ranged_double) :
    ∀ s : stddev_state_t ranged_double, ranged_double.DoubleIsValid s.dsquared = false →
      ranged_double.DoubleIsValid (xs.foldl Operation s).dsquared = false := by
  induction xs with
  | nil => intro s hs; exact hs
  | cons x xs ih =>
    intro s hs
    exact ih (Operation s x) (Operation_overflow_propagates s x (Or.inr (Or.inr hs)))

end ranged_lemmas

/-- C14: the diagnostic finalizer agrees with the sample standard-deviation finalizer on
every state: it returns null exactly when that one does, raises a range error exactly when
that one does (with the same message), and whenever that one returns `v` it returns the text
`{count: <count>, mean: <mean>, dsquared: <dsquared>, stddev: <v>}`; one of the three
cases always applies. -/
theorem diagnostic_agrees_with_stddev_samp {β : Type} [Zero β] [Div β] [NatCast β]
    (DoubleIsValid : β → Bool) (sqrt : β → β) (to_string : β → String)
    (s : stddev_state_t β) :
    (STDDevSampStateOperation.Finalize DoubleIsValid sqrt to_string s = .ok none ↔
        STDDevSampOperation.Finalize DoubleIsValid sqrt s = .ok none) ∧
      ((∃ msg, STDDevSampStateOperation.Finalize DoubleIsValid sqrt to_string s = .error msg) ↔
        (∃ msg, STDDevSampOperation.Finalize DoubleIsValid sqrt s = .error msg)) ∧
      (∀ msg, STDDevSampOperation.Finalize DoubleIsValid sqrt s = .error msg →
        STDDevSampStateOperation.Finalize DoubleIsValid sqrt to_string s = .error msg) ∧
      (∀ v, STDDevSampOperation.Finalize DoubleIsValid sqrt s = .ok (some v) →
        STDDevSampStateOperation.Finalize DoubleIsValid sqrt to_string s =
          .ok (some ("\x7bcount: " ++ toString s.count ++ ", mean: " ++ to_string s.mean ++
            ", dsquared: " ++ to_string s.dsquared ++ ", stddev: " ++ to_string v ++ "\x7d"))) ∧
      (STDDevSampOperation.Finalize DoubleIsValid sqrt s = .ok none ∨
        (∃ msg, STDDevSampOperation.Finalize DoubleIsValid sqrt s = .error msg) ∨
        ∃ v, STDDevSampOperation.Finalize DoubleIsValid sqrt s = .ok (some v)) := by
  unfold STDDevSampStateOperation.Finalize STDDevSampOperation.Finalize
  by_cases h0 : s.count = 0
  · simp [h0]
  · simp only [if_neg h0]
    by_cases hv : DoubleIsValid
        (if s.count > 1 then sqrt (s.dsquared / ((s.count - 1 : Nat) : β)) else 0) = true
    · simp only [hv, Bool.not_true, Bool.false_eq_true, if_false, String.append_assoc]
      refine ⟨by simp, by simp, by simp, ?_, by simp⟩
      intro v hv'
      simp only [Except.ok.injEq, Option.some.injEq] at hv'
      subst hv'
      rfl
    · simp [hv]

section invariant_lemmas

variable {β : Type}

theorem Operation_count [Add β] [Sub β] [Mul β] [Div β] [NatCast β] (s : stddev_state_t β)
    (x : β) : (Operation s x).count = (s.count + 1) % 2 ^ 64 := rfl

theorem invariant_Operation_of_lt [Zero β] [Add β] [Sub β] [Mul β] [Div β] [NatCast β]
    (s : stddev_state_t β) (x : β) (h : s.count + 1 < 2 ^ 64) : Invariant (Operation s x) := by
  intro h0
  rw [Operation_count, Nat.mod_eq_of_lt h] at h0
  omega

theorem invariant_ConstantOperation_of_lt [Zero β] [Add β] [Sub β] [Mul β] [Div β] [NatCast β]
    (x : β) (n : Nat) : ∀ s : stddev_state_t β, Invariant s → s.count + n < 2 ^ 64 →
      Invariant (ConstantOperation s x n) := by
  induction n with
  | zero => intro s hs _; exact hs
  | succ n ih =>
    intro s _ hn
    have h1 : s.count + 1 < 2 ^ 64 := by omega
    refine ih (Operation s x) (invariant_Operation_of_lt s x h1) ?_
    rw [Operation_count, Nat.mod_eq_of_lt h1]
    omega

theorem invariant_Combine_of_lt [Zero β] [Add β] [Sub β] [Mul β] [Div β] [NatCast β]
    (s t : stddev_state_t β) (hs : Invariant s) (ht : Invariant t)
    (hn : t.count + s.count < 2 ^ 64) : Invariant (Combine s t) := by
  unfold Combine
  split_ifs with h0 h1
  · exact hs
  · intro h
    simp only [Nat.mod_eq_of_lt hn] at h
    omega
  · exact ht

theorem foldl_Operation_count [Add β] [Sub β] [Mul β] [Div β] [NatCast β] (xs : List β) :
    ∀ s : stddev_state_t β, s.count + xs.length < 2 ^ 64 →
      (xs.foldl Operation s).count = s.count + xs.length := by
  induction xs with
  | nil => intro s _; rfl
  | cons x xs ih =>
    intro s hn
    simp only [List.length_cons] at hn
    have h1 : s.count + 1 < 2 ^ 64 := by omega
    rw [List.foldl_cons, ih (Operation s x) (by rw [Operation_count, Nat.mod_eq_of_lt h1]; omega),
      Operation_count, Nat.mod_eq_of_lt h1, List.length_cons]
    omega

theorem invariant_accumulate_of_lt [Zero β] [Add β] [Sub β] [Mul β] [Div β] [NatCast β]
    (xs : List β) (h : xs.length < 2 ^ 64) : Invariant (accumulate xs) := by
  intro h0
  have hc : (accumulate xs).count = 0 + xs.length :=
    foldl_Operation_count xs Initialize (by simpa [Initialize] using h)
  have hnil : xs = [] := List.length_eq_zero.mp (by omega)
  subst hnil
  exact ⟨rfl, rfl⟩

end invariant_lemmas

/-- C15 (amended): the invariant `count = 0 → mean = 0 ∧ dsquared = 0` holds of the state
produced by `Initialize` and is preserved by `Operation`, `ConstantOperation` and `Combine`
as long as the 64-bit count does not wrap; hence it holds of every state accumulated from
fewer than `2 ^ 64` values. -/
theorem invariant_preserved_without_wrap {β : Type} [Zero β] [Add β] [Sub β] [Mul β] [Div β]
    [NatCast β] :
    Invariant (Initialize : stddev_state_t β) ∧
      (∀ (s : stddev_state_t β) (x : β), Invariant s → s.count + 1 < 2 ^ 64 →
        Invariant (Operation s x)) ∧
      (∀ (s : stddev_state_t β) (x : β) (n : Nat), Invariant s → s.count + n < 2 ^ 64 →
        Invariant (ConstantOperation s x n)) ∧
      (∀ source target : stddev_state_t β, Invariant source → Invariant target →
        target.count + source.count < 2 ^ 64 → Invariant (Combine source target)) ∧
      (∀ xs : List β, xs.length < 2 ^ 64 → Invariant (accumulate xs)) :=
  ⟨fun _ => ⟨rfl, rfl⟩, fun s x _ h => invariant_Operation_of_lt s x h,
    fun s x n hs h => invariant_ConstantOperation_of_lt x n s hs h,
    fun s t hs ht h => invariant_Combine_of_lt s t hs ht h,
    fun xs h => invariant_accumulate_of_lt xs h⟩

/-- Witness for C15 (amended) on rational states. -/
theorem invariant_preserved_without_wrap_witness :
    Invariant (Operation (⟨0, 0, 0⟩ : stddev_state_t ℚ) 5) ∧
      Invariant (ConstantOperation (⟨0, 0, 0⟩ : stddev_state_t ℚ) 5 3) ∧
      Invariant (Combine (⟨0, 0, 0⟩ : stddev_state_t ℚ) ⟨0, 0, 0⟩) :=
  ⟨invariant_preserved_without_wrap.2.1 _ _ (fun _ => ⟨rfl, rfl⟩) (by decide),
    invariant_preserved_without_wrap.2.2.1 _ _ _ (fun _ => ⟨rfl, rfl⟩) (by decide),
    invariant_preserved_without_wrap.2.2.2.1 _ _ (fun _ => ⟨rfl, rfl⟩) (fun _ => ⟨rfl, rfl⟩)
      (by decide)⟩

theorem ConstantOperation_succ_last {β : Type} [Add β] [Sub β] [Mul β] [Div β] [NatCast β]
    (x : β) (n : Nat) : ∀ s : stddev_state_t β,
      ConstantOperation s x (n + 1) = Operation (ConstantOperation s x n) x := by
  induction n with
  | zero => intro s; rfl
  | succ n ih =>
    intro s
    show ConstantOperation (Operation s x) x (n + 1) = _
    rw [ih (Operation s x)]
    rfl

theorem run_of_ones (n : Nat) (h : n + 1 < 2 ^ 64) :
    ConstantOperation (Initialize : stddev_state_t exact_double) (.finite 1) (n + 1) =
      ⟨n + 1, .finite 1, .finite 0⟩ := by
  induction n with
  | zero =>
    simp [ConstantOperation, Operation, Initialize, exact_double.zero_def,
      exact_double.natCast_def, exact_double.finite_add, exact_double.finite_sub,
      exact_double.finite_mul, exact_double.finite_div]
  | succ n ih =>
    have hq : ((n : ℚ) + 1 + 1) ≠ 0 := by positivity
    rw [ConstantOperation_succ_last, ih (by omega)]
    simp only [Operation, Nat.mod_eq_of_lt h]
    simp [exact_double.natCast_def, exact_double.finite_add, exact_double.finite_sub,
      exact_double.finite_mul, exact_double.finite_div, hq]

/-- C15 (counterexample): the invariant is not preserved when the 64-bit count wraps to
zero.  `Operation` on `count = 2^64 - 1` and `Combine` of two states with `count = 2^63`
both start from states that satisfy it and end in `count = 0` with a NaN mean; the first of
these states is reached from `Initialize` by a run of `2^64 - 1` ones. -/
theorem invariant_broken_by_wrap :
    (Invariant (⟨2 ^ 64 - 1, .finite 1, .finite 0⟩ : stddev_state_t exact_double) ∧
        ¬ Invariant
          (Operation (⟨2 ^ 64 - 1, .finite 1, .finite 0⟩ : stddev_state_t exact_double)
            (.finite 1))) ∧
      (Invariant (⟨2 ^ 63, .finite 0, .finite 1⟩ : stddev_state_t exact_double) ∧
        ¬ Invariant
          (Combine (⟨2 ^ 63, .finite 0, .finite 1⟩ : stddev_state_t exact_double)
            ⟨2 ^ 63, .finite 0, .finite 1⟩)) ∧
      ¬ Invariant
        (Operation
          (ConstantOperation (Initialize : stddev_state_t exact_double) (.finite 1) (2 ^ 64 - 1))
          (.finite 1)) := by
  have h1 : ¬ Invariant
      (Operation (⟨2 ^ 64 - 1, .finite 1, .finite 0⟩ : stddev_state_t exact_double)
        (.finite 1)) := by
    simp [Invariant, Operation, exact_double.zero_def, exact_double.natCast_def,
      exact_double.finite_add, exact_double.finite_sub, exact_double.finite_mul,
      exact_double.finite_div, exact_double.signed_inf, exact_double.add_nan]
  refine ⟨⟨fun h => absurd h (by decide), h1⟩, ⟨fun h => absurd h (by decide), ?_⟩, ?_⟩
  · simp [Invariant, Combine, exact_double.zero_def, exact_double.natCast_def,
      exact_double.ofNat_def, exact_double.finite_add, exact_double.finite_sub,
      exact_double.finite_mul, exact_double.finite_div, exact_double.signed_inf,
      exact_double.add_nan]
  · have hrun := run_of_ones (2 ^ 64 - 2) (by decide)
    have e : (2 : Nat) ^ 64 - 2 + 1 = 2 ^ 64 - 1 := by decide
    rw [e] at hrun
    rw [hrun]
    exact h1

section nonneg_lemmas

variable {γ : Type} [LinearOrderedField γ]

theorem dsquared_nonneg_Operation (s : stddev_state_t γ) (x : γ) (hd : 0 ≤ s.dsquared)
    (hn : s.count + 1 < 2 ^ 64) : 0 ≤ (Operation s x).dsquared := by
  have hk : (1 : γ) ≤ ((s.count + 1 : Nat) : γ) := by
    have : 1 ≤ s.count + 1 := by omega
    exact_mod_cast this
  have hk0 : (0 : γ) < ((s.count + 1 : Nat) : γ) := lt_of_lt_of_le one_pos hk
  have e : (x - (s.mean + (x - s.mean) / ((s.count + 1 : Nat) : γ))) * (x - s.mean) =
      (x - s.mean) ^ 2 * ((((s.count + 1 : Nat) : γ) - 1) / ((s.count + 1 : Nat) : γ)) := by
    field_simp
    ring
  simp only [Operation, Nat.mod_eq_of_lt hn]
  rw [e]
  exact add_nonneg hd (mul_nonneg (sq_nonneg _) (div_nonneg (sub_nonneg.mpr hk) hk0.le))

theorem dsquared_nonneg_ConstantOperation (x : γ) (n : Nat) :
    ∀ s : stddev_state_t γ, 0 ≤ s.dsquared → s.count + n < 2 ^ 64 →
      0 ≤ (ConstantOperation s x n).dsquared := by
  induction n with
  | zero => intro s hs _; exact hs
  | succ n ih =>
    intro s hs hn
    have h1 : s.count + 1 < 2 ^ 64 := by omega
    refine ih (Operation s x) (dsquared_nonneg_Operation s x hs h1) ?_
    rw [Operation_count, Nat.mod_eq_of_lt h1]
    omega

theorem dsquared_nonneg_Combine (s t : stddev_state_t γ) (hs : 0 ≤ s.dsquared)
    (ht : 0 ≤ t.dsquared) : 0 ≤ (Combine s t).dsquared := by
  unfold Combine
  split_ifs with h0 h1
  · exact hs
  · have h3 : (0 : γ) ≤ (((t.count + s.count) % 2 ^ 64 : Nat) : γ) := Nat.cast_nonneg _
    have h4 : (0 : γ) ≤ (s.count : γ) := Nat.cast_nonneg _
    have h5 : (0 : γ) ≤ (t.count : γ) := Nat.cast_nonneg _
    exact add_nonneg (add_nonneg hs ht)
      (div_nonneg (mul_nonneg (mul_nonneg (mul_self_nonneg _) h4) h5) h3)
  · exact ht

theorem dsquared_nonneg_foldl (xs : List γ) :
    ∀ s : stddev_state_t γ, 0 ≤ s.dsquared → s.count + xs.length < 2 ^ 64 →
      0 ≤ (xs.foldl Operation s).dsquared := by
  induction xs with
  | nil => intro s hs _; exact hs
  | cons x xs ih =>
    intro s hs hn
    simp only [List.length_cons] at hn
    have h1 : s.count + 1 < 2 ^ 64 := by omega
    refine ih (Operation s x) (dsquared_nonneg_Operation s x hs h1) ?_
    rw [Operation_count, Nat.mod_eq_of_lt h1]
    omega

theorem variance_nonneg (V : γ → Bool) (s : stddev_state_t γ) (hd : 0 ≤ s.dsquared) (v : γ)
    (hv : VarPopOperation.Finalize V s = .ok (some v) ∨
      VarSampOperation.Finalize V s = .ok (some v)) : 0 ≤ v := by
  have hp : 0 ≤ VarPopOperation.target s := by
    unfold VarPopOperation.target
    split_ifs
    · exact div_nonneg hd (Nat.cast_nonneg _)
    · exact le_refl _
  have hsamp : 0 ≤ VarSampOperation.target s := by
    unfold VarSampOperation.target
    split_ifs
    · exact div_nonneg hd (Nat.cast_nonneg _)
    · exact le_refl _
  by_cases h0 : s.count = 0
  · rcases hv with hv | hv
    · simp [VarPopOperation.Finalize, h0] at hv
    · simp [VarSampOperation.Finalize, h0] at hv
  · rcases hv with hv | hv
    · rw [var_pop_finalize_eq V s h0] at hv
      split_ifs at hv
      simp only [Except.ok.injEq, Option.some.injEq] at hv
      exact hv ▸ hp
    · rw [var_samp_finalize_eq V s h0] at hv
      split_ifs at hv
      simp only [Except.ok.injEq, Option.some.injEq] at hv
      exact hv ▸ hsamp

end nonneg_lemmas

/-- C16: in exact arithmetic (an ordered field, the 64-bit count not wrapping) `dsquared`
is never negative: it is `0` after `Initialize`; `Operation`, `ConstantOperation` and
`Combine` keep `dsquared >= 0`; hence every state accumulated from `Initialize` has
`dsquared >= 0`, and a variance returned by a finalizer on such a state is non-negative. -/
theorem dsquared_never_negative {γ : Type} [LinearOrderedField γ] (DoubleIsValid : γ → Bool) :
    (Initialize : stddev_state_t γ).dsquared = 0 ∧
      (∀ (s : stddev_state_t γ) (x : γ), 0 ≤ s.dsquared → s.count + 1 < 2 ^ 64 →
        0 ≤ (Operation s x).dsquared) ∧
      (∀ (s : stddev_state_t γ) (x : γ) (n : Nat), 0 ≤ s.dsquared → s.count + n < 2 ^ 64 →
        0 ≤ (ConstantOperation s x n).dsquared) ∧
      (∀ source target : stddev_state_t γ, 0 ≤ source.dsquared → 0 ≤ target.dsquared →
        target.count + source.count < 2 ^ 64 → 0 ≤ (Combine source target).dsquared) ∧
      (∀ xs : List γ, xs.length < 2 ^ 64 → 0 ≤ (accumulate xs).dsquared) ∧
      (∀ (s : stddev_state_t γ) (v : γ), 0 ≤ s.dsquared →
        (VarPopOperation.Finalize DoubleIsValid s = .ok (some v) ∨
          VarSampOperation.Finalize DoubleIsValid s = .ok (some v)) → 0 ≤ v) :=
  ⟨rfl, fun s x hd hn => dsquared_nonneg_Operation s x hd hn,
    fun s x n hd hn => dsquared_nonneg_ConstantOperation x n s hd hn,
    fun s t hs ht _ => dsquared_nonneg_Combine s t hs ht,
    fun xs h => dsquared_nonneg_foldl xs Initialize (le_refl _) (by simpa [Initialize] using h),
    fun s v hd hv => variance_nonneg DoubleIsValid s hd v hv⟩

/-- Witness for C16 on rational states. -/
theorem dsquared_never_negative_witness :
    0 ≤ (Operation (⟨2, 1, 3⟩ : stddev_state_t ℚ) 4).dsquared ∧
      0 ≤ (Combine (⟨2, 1, 3⟩ : stddev_state_t ℚ) ⟨1, 4, 0⟩).dsquared ∧
      0 ≤ (accumulate ([1, 2, 4] : List ℚ)).dsquared :=
  ⟨(dsquared_never_negative (fun _ : ℚ => true)).2.1 ⟨2, 1, 3⟩ 4 (by decide) (by decide),
    (dsquared_never_negative (fun _ : ℚ => true)).2.2.2.1 ⟨2, 1, 3⟩ ⟨1, 4, 0⟩ (by decide)
      (by decide) (by decide),
    (dsquared_never_negative (fun _ : ℚ => true)).2.2.2.2.1 [1, 2, 4] (by simp)⟩

/-- C17: in exact arithmetic (count not wrapping) the accumulated state does not depend on
the order of the updates: a list and any permutation of it give states equal in `count`,
`mean` and `dsquared`. -/
theorem accumulate_perm {α : Type} [Field α] [CharZero α] (xs ys : List α) (hp : xs.Perm ys)
    (hlen : xs.length < 2 ^ 64) :
    (accumulate xs).count = (accumulate ys).count ∧
      (accumulate xs).mean = (accumulate ys).mean ∧
      (accumulate xs).dsquared = (accumulate ys).dsquared := by
  have hlen' : ys.length < 2 ^ 64 := hp.length_eq ▸ hlen
  have h1 := tracks_accumulate xs hlen
  have h2 := tracks_accumulate ys hlen'
  rw [← hp.length_eq, ← hp.sum_eq, ← (hp.map fun x => x ^ 2).sum_eq] at h2
  have e := eq_of_tracks h1 h2 (invariant_accumulate xs hlen) (invariant_accumulate ys hlen')
  rw [e]
  exact ⟨rfl, rfl, rfl⟩

/-- Witness for C17 on the rational lists `[1, 2, 4]` and `[4, 1, 2]`. -/
theorem accumulate_perm_witness :
    (accumulate ([1, 2, 4] : List ℚ)).count = (accumulate ([4, 1, 2] : List ℚ)).count ∧
      (accumulate ([1, 2, 4] : List ℚ)).mean = (accumulate ([4, 1, 2] : List ℚ)).mean ∧
      (accumulate ([1, 2, 4] : List ℚ)).dsquared = (accumulate ([4, 1, 2] : List ℚ)).dsquared :=
  accumulate_perm [1, 2, 4] [4, 1, 2] (by decide) (by simp)

/-- C18: in exact arithmetic (count not wrapping) one update is a merge with a one-element
state: for a state `s` satisfying the invariant and a value `x`, `Operation s x` equals,
field for field, the target left by `Combine(source = {count 1, mean x, dsquared 0},
target = s)`. -/
theorem operation_eq_combine_singleton {α : Type} [Field α] [CharZero α] (s : stddev_state_t α) (x : α)
    (hs : Invariant s) (hn : s.count + 1 < 2 ^ 64) :
    Operation s x = Combine ⟨1, x, 0⟩ s := by
  have i1 : Invariant (⟨1, x, 0⟩ : stddev_state_t α) := fun h => absurd h Nat.one_ne_zero
  have h1 := tracks_Operation (tracks_self s) hn x
  have h2 := tracks_Combine (tracks_self (⟨1, x, 0⟩ : stddev_state_t α)) (tracks_self s) i1 hs hn
  exact eq_of_tracks h1
    (tracks_congr h2 rfl (by simp) (by simp))
    (invariant_Operation_of_lt s x hn) (invariant_Combine i1 hs hn)

/-- Witness for C18 on the rational state `count = 2, mean = 1, dsquared = 3` and `x = 4`. -/
theorem operation_eq_combine_singleton_witness :
    Operation (⟨2, 1, 3⟩ : stddev_state_t ℚ) 4 = Combine ⟨1, 4, 0⟩ ⟨2, 1, 3⟩ :=
  operation_eq_combine_singleton ⟨2, 1, 3⟩ 4 (fun h => absurd h (by decide)) (by decide)

theorem uint64_sub_one (c : Nat) (h1 : 1 < c) (h2 : c < 2 ^ 64) : uint64_sub c 1 = c - 1 := by
  unfold uint64_sub
  have e : c + 2 ^ 64 - 1 = (c - 1) + 2 ^ 64 := by omega
  rw [e, Nat.add_mod_right, Nat.mod_eq_of_lt (by omega)]

/-- C19: when the 64-bit count does not wrap, no operation divides by zero and the unsigned
subtraction does not underflow.  `Operation` divides by the incremented count, which is at
least `1` when `count < 2^64 - 1`; the general branch of `Combine` divides by the sum of the
counts, which is at least `2` when it is below `2^64`; the finalizers compute `0` without a
quotient when `count <= 1`, and for `count > 1` their divisors are `count >= 2` and
`count - 1 >= 1`, the machine subtraction giving `count - 1` and not `2^64 - 1`. -/
theorem divisors_nonzero_without_wrap {β : Type} [Zero β] [Add β] [Sub β] [Mul β] [Div β]
    [NatCast β] (sqrt : β → β) :
    (∀ (s : stddev_state_t β) (x : β),
        (Operation s x).mean =
            s.mean + (x - s.mean) / ((((s.count + 1) % 2 ^ 64 : Nat)) : β) ∧
          (s.count < 2 ^ 64 - 1 → 1 ≤ (s.count + 1) % 2 ^ 64)) ∧
      (∀ source target : stddev_state_t β, target.count ≠ 0 → source.count > 0 →
        ((Combine source target).mean =
            ((source.count : β) * source.mean + (target.count : β) * target.mean) /
              ((((target.count + source.count) % 2 ^ 64 : Nat)) : β) ∧
          (Combine source target).dsquared =
            source.dsquared + target.dsquared +
              (source.mean - target.mean) * (source.mean - target.mean) * (source.count : β) *
                (target.count : β) / ((((target.count + source.count) % 2 ^ 64 : Nat)) : β)) ∧
          (source.count + target.count < 2 ^ 64 →
            2 ≤ (target.count + source.count) % 2 ^ 64)) ∧
      (∀ s : stddev_state_t β, s.count ≤ 1 →
        VarPopOperation.target s = 0 ∧ VarSampOperation.target s = 0 ∧
          STDDevPopOperation.target sqrt s = 0 ∧ STDDevSampOperation.target sqrt s = 0 ∧
          STDDevSampStateOperation.stddev_samp sqrt s = 0) ∧
      (∀ s : stddev_state_t β, 1 < s.count → s.count < 2 ^ 64 →
        VarPopOperation.target s = s.dsquared / (s.count : β) ∧
          VarSampOperation.target s = s.dsquared / ((uint64_sub s.count 1 : Nat) : β) ∧
          STDDevPopOperation.target sqrt s = sqrt (s.dsquared / (s.count : β)) ∧
          STDDevSampOperation.target sqrt s =
            sqrt (s.dsquared / ((uint64_sub s.count 1 : Nat) : β)) ∧
          STDDevSampStateOperation.stddev_samp sqrt s =
            sqrt (s.dsquared / ((uint64_sub s.count 1 : Nat) : β)) ∧
          2 ≤ s.count ∧ 1 ≤ uint64_sub s.count 1 ∧ uint64_sub s.count 1 = s.count - 1 ∧
          uint64_sub s.count 1 ≠ 2 ^ 64 - 1) := by
  refine ⟨?_, ?_, ?_, ?_⟩
  · intro s x
    refine ⟨rfl, ?_⟩
    intro h
    rw [Nat.mod_eq_of_lt (by omega)]
    omega
  · intro s t ht hs
    refine ⟨?_, ?_⟩
    · unfold Combine
      rw [if_neg ht, if_pos hs]
      exact ⟨rfl, rfl⟩
    · intro h
      rw [Nat.mod_eq_of_lt (by omega)]
      omega
  · intro s h
    have h1 : ¬ s.count > 1 := by omega
    refine ⟨?_, ?_, ?_, ?_, ?_⟩
    · simp [VarPopOperation.target, h1]
    · simp [VarSampOperation.target, h1]
    · simp [STDDevPopOperation.target, h1]
    · simp [STDDevSampOperation.target, h1]
    · simp [STDDevSampStateOperation.stddev_samp, h1]
  · intro s h1 h2
    have e := uint64_sub_one s.count h1 h2
    refine ⟨?_, ?_, ?_, ?_, ?_, by omega, by omega, e, by omega⟩
    · simp [VarPopOperation.target, h1]
    · simp [VarSampOperation.target, h1, e]
    · simp [STDDevPopOperation.target, h1]
    · simp [STDDevSampOperation.target, h1, e]
    · simp [STDDevSampStateOperation.stddev_samp, h1, e]

/-- Witness for C19 on rational states. -/
theorem divisors_nonzero_without_wrap_witness :
    1 ≤ ((⟨2 ^ 64 - 2, 1, 0⟩ : stddev_state_t ℚ).count + 1) % 2 ^ 64 ∧
      2 ≤ ((⟨1, 3, 0⟩ : stddev_state_t ℚ).count + (⟨1, 1, 0⟩ : stddev_state_t ℚ).count) % 2 ^ 64 ∧
      uint64_sub (⟨2, 1, 3⟩ : stddev_state_t ℚ).count 1 =
        (⟨2, 1, 3⟩ : stddev_state_t ℚ).count - 1 :=
  ⟨((divisors_nonzero_without_wrap (id : ℚ → ℚ)).1 ⟨2 ^ 64 - 2, 1, 0⟩ 0).2 (by decide),
    ((divisors_nonzero_without_wrap (id : ℚ → ℚ)).2.1 ⟨1, 1, 0⟩ ⟨1, 3, 0⟩ (by decide)
      (by decide)).2 (by decide),
    ((divisors_nonzero_without_wrap (id : ℚ → ℚ)).2.2.2 ⟨2, 1, 3⟩ (by decide)
      (by decide)).2.2.2.2.2.2.2.1⟩

/-- C20: with the 64-bit count, for source and target with both counts `> 0` the count
stored by `Combine` is `(source.count + target.count) mod 2^64`; it is the true sum exactly
when that sum is below `2^64`; when the sum is exactly `2^64` the stored count is `0` and
every finalizer then reports null. -/
theorem combine_count_wraps {β : Type} [Zero β] [Add β] [Sub β] [Mul β] [Div β] [NatCast β]
    (DoubleIsValid : β → Bool) (sqrt : β → β) (to_string : β → String)
    (source target : stddev_state_t β) (hs : source.count > 0) (ht : target.count > 0) :
    (Combine source target).count = (source.count + target.count) % 2 ^ 64 ∧
      ((Combine source target).count = source.count + target.count ↔
        source.count + target.count < 2 ^ 64) ∧
      (source.count + target.count = 2 ^ 64 →
        (Combine source target).count = 0 ∧
          VarPopOperation.Finalize DoubleIsValid (Combine source target) = .ok none ∧
          VarSampOperation.Finalize DoubleIsValid (Combine source target) = .ok none ∧
          STDDevPopOperation.Finalize DoubleIsValid sqrt (Combine source target) = .ok none ∧
          STDDevSampOperation.Finalize DoubleIsValid sqrt (Combine source target) = .ok none ∧
          STDDevSampStateOperation.Finalize DoubleIsValid sqrt to_string
            (Combine source target) = .ok none) := by
  have hc : (Combine source target).count = (source.count + target.count) % 2 ^ 64 := by
    unfold Combine
    rw [if_neg (by omega), if_pos hs, Nat.add_comm]
  refine ⟨hc, ?_, ?_⟩
  · rw [hc]
    constructor
    · intro h
      by_contra hlt
      have := Nat.mod_lt (source.count + target.count) (by decide : 2 ^ 64 > 0)
      omega
    · intro h
      exact Nat.mod_eq_of_lt h
  · intro h
    have h0 : (Combine source target).count = 0 := by
      rw [hc, h, Nat.mod_self]
    refine ⟨h0, ?_, ?_, ?_, ?_, ?_⟩
    · simp [VarPopOperation.Finalize, h0]
    · simp [VarSampOperation.Finalize, h0]
    · simp [STDDevPopOperation.Finalize, h0]
    · simp [STDDevSampOperation.Finalize, h0]
    · simp [STDDevSampStateOperation.Finalize, h0]

/-- Witness for C20: two rational states of `2^63` values each. -/
theorem combine_count_wraps_witness :
    (Combine (⟨2 ^ 63, 1, 0⟩ : stddev_state_t ℚ) ⟨2 ^ 63, 3, 0⟩).count = 0 ∧
      VarSampOperation.Finalize (fun _ : ℚ => true)
        (Combine (⟨2 ^ 63, 1, 0⟩ : stddev_state_t ℚ) ⟨2 ^ 63, 3, 0⟩) = .ok none :=
  have h := (combine_count_wraps (fun _ : ℚ => true) id (fun _ => "") ⟨2 ^ 63, 1, 0⟩
    ⟨2 ^ 63, 3, 0⟩ (by decide) (by decide)).2.2 (by decide)
  ⟨h.1, h.2.2.1⟩

end duckdb
